import Mathlib

/-!
Verification of the plugin dependency-graph and lifecycle manager.

The development shallowly embeds `util/digraph.py` and `plugins/__init__.py`.
Python dictionaries become association lists (`List (V × List V)`), preserving
insertion order; Python sets become duplicate-free lists whose iteration order
is the insertion order (one determinization of CPython's unspecified set
order).  The recursive depth-first traversals of the source are embedded as a
fuel-driven worklist loop that performs the same visits, edge insertions and
emissions in the same order; the fuel is chosen large enough that it is never
exhausted (proved below via a decreasing potential).  Exceptions are embedded
as explicitly collected error lists: an operation "raises" exactly when its
error list is non-empty, and the source's recursive continue-then-reraise
blocks become folds that keep running and concatenate the errors.
-/

/-- Association-list lookup, mirroring Python `d[x]` / `x in d` on dicts. -/
def aget {V β : Type} [DecidableEq V] : List (V × β) → V → Option β
  | [], _ => none
  | p :: r, x => if x = p.1 then some p.2 else aget r x

/-- The neighbour set stored under key `x`, empty when `x` is not a key.
Mirrors the pattern `self.m[x] if x in self.m else set()`. -/
def adjOf {V : Type} [DecidableEq V] (m : List (V × List V)) (x : V) : List V :=
  (aget m x).getD []

/-- The keys of a mapping, in insertion order (Python `for x in d`). -/
def keysOf {V β : Type} (m : List (V × β)) : List V :=
  m.map Prod.fst

/-- `m` with `y` added to the set stored under `x`, creating the key at the
end if absent.  Mirrors `if x not in m: m[x] = set()` followed by `m[x].add(y)`. -/
def addVal {V : Type} [DecidableEq V] : List (V × List V) → V → V → List (V × List V)
  | [], x, y => [(x, [y])]
  | (k, vs) :: r, x, y =>
      if x = k then (k, if y ∈ vs then vs else vs ++ [y]) :: r
      else (k, vs) :: addVal r x y

/-- `m` with `y` discarded from the set stored under `x` (no-op when absent).
Mirrors `m[x].discard(y)`. -/
def discardVal {V : Type} [DecidableEq V] (m : List (V × List V)) (x y : V) :
    List (V × List V) :=
  m.map (fun p => if p.1 = x then (p.1, p.2.erase y) else p)

/-- `m` with the key `x` deleted.  Mirrors `del m[x]`. -/
def delKey {V : Type} [DecidableEq V] : List (V × List V) → V → List (V × List V)
  | [], _ => []
  | p :: r, x => if p.1 = x then delKey r x else p :: delKey r x

/-- Total number of stored neighbour-set elements, used only to size the fuel. -/
def valsLen {V : Type} (m : List (V × List V)) : Nat :=
  (m.map (fun p => p.2.length)).sum

/-- The directed graph of `util/digraph.py`: a forward and a backward mapping. -/
structure Digraph' (V : Type) where
  fwd : List (V × List V)
  bck : List (V × List V)
deriving DecidableEq

/-- `Digraph.__init__`: the empty graph. -/
def Digraph'.empty {V : Type} : Digraph' V := ⟨[], []⟩

/-- `Digraph.add_edge`. -/
def Digraph'.add_edge {V : Type} [DecidableEq V] (g : Digraph' V) (x y : V) : Digraph' V :=
  ⟨addVal g.fwd x y, addVal g.bck y x⟩

/-- `Digraph.edges_from`. -/
def Digraph'.edges_from {V : Type} [DecidableEq V] (g : Digraph' V) (x : V) : List V :=
  adjOf g.fwd x

/-- `Digraph.edges_to`. -/
def Digraph'.edges_to {V : Type} [DecidableEq V] (g : Digraph' V) (x : V) : List V :=
  adjOf g.bck x

/-- `Digraph.del_edges_from`: discard `x` from `bck[y]` for every out-neighbour
`y`, then delete the key `x` from `fwd`; no-op when `x` has no out-edges. -/
def Digraph'.del_edges_from {V : Type} [DecidableEq V] (g : Digraph' V) (x : V) : Digraph' V :=
  if x ∈ keysOf g.fwd then
    ⟨delKey g.fwd x, (adjOf g.fwd x).foldl (fun b y => discardVal b y x) g.bck⟩
  else g

/-- `Digraph.del_edges_to`: symmetric to `del_edges_from`. -/
def Digraph'.del_edges_to {V : Type} [DecidableEq V] (g : Digraph' V) (x : V) : Digraph' V :=
  if x ∈ keysOf g.bck then
    ⟨(adjOf g.bck x).foldl (fun f y => discardVal f y x) g.fwd, delKey g.bck x⟩
  else g

/-- Worklist items of the topological-sort traversal: `visit x` is a pending
recursive call `dfs(x)`, `emit x` is the pending `yield x` at the end of the
already-entered call `dfs(x)`. -/
inductive TItem (V : Type) where
  | visit : V → TItem V
  | emit : V → TItem V
deriving DecidableEq

/-- The depth-first emitter shared by `topo_sort_fwd` / `topo_sort_bck`
(`m` is the mapping followed by the inner `dfs`).  State: (seen, output).
Entering `visit x` with `x` unseen marks it and schedules the recursive
visits of `m[x]` followed by the emission of `x`, exactly as the source's

    def dfs(x):
        if x in seen: return
        seen.add(x)
        if x in m:
            for y in m[x]: yield from dfs(y)
        yield x

The fuel only bounds the recursion depth; it is chosen so that it is never
exhausted. -/
def tsGo {V : Type} [DecidableEq V] (m : List (V × List V)) :
    Nat → List (TItem V) → List V × List V → List V × List V
  | _, [], s => s
  | 0, _ :: _, s => s
  | fuel+1, TItem.visit x :: rest, s =>
      if x ∈ s.1 then tsGo m fuel rest s
      else tsGo m fuel (((adjOf m x).map TItem.visit) ++ TItem.emit x :: rest) (s.1 ++ [x], s.2)
  | fuel+1, TItem.emit x :: rest, s => tsGo m fuel rest (s.1, s.2 ++ [x])

/-- Fuel large enough for every traversal of `g` (proved sufficient below). -/
def graphFuel {V : Type} (g : Digraph' V) : Nat :=
  3 * (g.fwd.length + g.bck.length + valsLen g.fwd + valsLen g.bck) + 3

/-- `Digraph.topo_sort_fwd`: dfs follows `bck`; seeds are the keys of `fwd`
then the keys of `bck`. -/
def Digraph'.topo_sort_fwd {V : Type} [DecidableEq V] (g : Digraph' V) : List V :=
  (tsGo g.bck (graphFuel g) ((keysOf g.fwd ++ keysOf g.bck).map TItem.visit) ([], [])).2

/-- `Digraph.topo_sort_bck`: dfs follows `fwd`; seeds are the keys of `bck`
then the keys of `fwd`. -/
def Digraph'.topo_sort_bck {V : Type} [DecidableEq V] (g : Digraph' V) : List V :=
  (tsGo g.fwd (graphFuel g) ((keysOf g.bck ++ keysOf g.fwd).map TItem.visit) ([], [])).2

/-- Worklist loop of `subgraph_paths_to`: a pending pair `(y, x)` stands for
`graph.add_edge(y, x); dfs(y)` inside the loop `for y in self.bck[x]`.  The
edge is inserted unconditionally; the recursive visit is skipped when `y` was
already seen, exactly as in the source. -/
def spGo {V : Type} [DecidableEq V] (m : List (V × List V)) :
    Nat → List (V × V) → Digraph' V × List V → Digraph' V × List V
  | _, [], s => s
  | 0, _ :: _, s => s
  | fuel+1, (y, x) :: rest, s =>
      let res := s.1.add_edge y x
      if y ∈ s.2 then spGo m fuel rest (res, s.2)
      else spGo m fuel (((adjOf m y).map (fun z => (z, y))) ++ rest) (res, s.2 ++ [y])

/-- `Digraph.subgraph_paths_to`: reverse depth-first traversal from `x`
following incoming edges, collecting each discovered edge into a new graph. -/
def Digraph'.subgraph_paths_to {V : Type} [DecidableEq V] (g : Digraph' V) (x : V) : Digraph' V :=
  (spGo g.bck (graphFuel g) ((adjOf g.bck x).map (fun y => (y, x))) (Digraph'.empty, [x])).1

/-- Edge relation of a graph, read off the forward mapping. -/
def hasEdge {V : Type} [DecidableEq V] (g : Digraph' V) (x y : V) : Prop :=
  y ∈ adjOf g.fwd x

instance {V : Type} [DecidableEq V] (g : Digraph' V) (x y : V) :
    Decidable (hasEdge g x y) := by
  unfold hasEdge; infer_instance

/-- A vertex of a graph: an identity with a key in `fwd` or in `bck`. -/
def vertexList {V : Type} (g : Digraph' V) : List V :=
  keysOf g.fwd ++ keysOf g.bck

/-- Non-empty paths along a mapping `m`: `PathA m x y` holds when there is a
chain of one or more `m`-steps from `x` to `y`. -/
inductive PathA {V : Type} [DecidableEq V] (m : List (V × List V)) : V → V → Prop where
  | base {x y : V} : y ∈ adjOf m x → PathA m x y
  | snoc {x y z : V} : PathA m x y → z ∈ adjOf m y → PathA m x z

/-- Acyclicity: no non-empty forward path from a vertex to itself. -/
def Acyclic {V : Type} [DecidableEq V] (g : Digraph' V) : Prop :=
  ∀ v, ¬ PathA g.fwd v v

/-- A numbering certificate for acyclicity (strictly increasing along edges);
decidable on concrete graphs, unlike `Acyclic` itself. -/
def RankCert {V : Type} (m : List (V × List V)) (f : V → Nat) : Prop :=
  ∀ p ∈ m, ∀ y ∈ p.2, f p.1 < f y

instance {V : Type} (m : List (V × List V)) (f : V → Nat) : Decidable (RankCert m f) := by
  unfold RankCert; infer_instance

/-- The three mutating operations of the claim about `Digraph` invariants. -/
inductive GOp (V : Type) where
  | add : V → V → GOp V
  | delFrom : V → GOp V
  | delTo : V → GOp V

/-- Apply one graph operation. -/
def applyOp {V : Type} [DecidableEq V] (g : Digraph' V) : GOp V → Digraph' V
  | GOp.add x y => g.add_edge x y
  | GOp.delFrom x => g.del_edges_from x
  | GOp.delTo x => g.del_edges_to x

/-- Run a sequence of graph operations from the empty graph. -/
def applyOps {V : Type} [DecidableEq V] (ops : List (GOp V)) : Digraph' V :=
  ops.foldl applyOp Digraph'.empty

/-- Well-formedness of a mapping: keys are distinct and each stored set is
duplicate-free. -/
def NodupMap {V : Type} (m : List (V × List V)) : Prop :=
  (keysOf m).Nodup ∧ ∀ p ∈ m, p.2.Nodup

instance {V : Type} [DecidableEq V] (m : List (V × List V)) : Decidable (NodupMap m) := by
  unfold NodupMap; infer_instance

/-- The maintained invariant of `Digraph`: both mappings well-formed and
mutually inverse as edge sets. -/
def GInv {V : Type} [DecidableEq V] (g : Digraph' V) : Prop :=
  NodupMap g.fwd ∧ NodupMap g.bck ∧
    (∀ p ∈ g.fwd, ∀ y ∈ p.2, p.1 ∈ adjOf g.bck y) ∧
    (∀ p ∈ g.bck, ∀ y ∈ p.2, p.1 ∈ adjOf g.fwd y)

instance {V : Type} [DecidableEq V] (g : Digraph' V) : Decidable (GInv g) := by
  unfold GInv; infer_instance

/-- The spec's claimed stronger invariant: an identity is a key of `fwd` or
`bck` iff it has at least one incident edge. -/
def KeyIffEdge {V : Type} [DecidableEq V] (g : Digraph' V) : Prop :=
  ∀ v ∈ vertexList g, adjOf g.fwd v ≠ [] ∨ adjOf g.bck v ≠ []

instance {V : Type} [DecidableEq V] (g : Digraph' V) : Decidable (KeyIffEdge g) := by
  unfold KeyIffEdge; infer_instance

/-- Error values of the lifecycle manager, one constructor per source of
exception: `ValueError(name + " is not a plugin")`, `KeyError` from
`del sys.modules[name]`, a finalizer action raising, and a plugin
initialization raising. -/
inductive Err where
  | valueErr : String → Err
  | keyErr : String → Err
  | finErr : Nat → Err
  | initErr : String → Err
deriving DecidableEq

/-- Observable events of a lifecycle operation: an `unsafe_unload` that passed
the plugin check (and hence finalized, dropped edges and deregistered), and an
actual module execution by the host import machinery. -/
inductive Ev where
  | unl : String → Ev
  | imp : String → Ev
deriving DecidableEq

/-- Behaviour of one plugin body when it is (re)executed: whether
initialization completes, which plugins its setup references (each recorded
as an edge by `trace_import`), and which finalizer actions it registers, in
order.  Plugin bodies are outside the core (spec §1); this oracle abstracts
them. -/
structure InitSpec where
  ok : Bool
  imports : List String
  fins : List Nat
deriving DecidableEq

/-- Behaviour oracle for everything outside the core: finalizer actions
(`finFails f` = action `f` raises when invoked) and plugin bodies. -/
structure Beh where
  finFails : Nat → Bool
  init : String → InitSpec

/-- The mutable state the lifecycle manager operates on: the dependency graph
`deps`, the finalizer registry `finalizers`, and the host's loaded-module
registry `sys.modules` (restricted to plugins, each entry carrying the
identity of the loaded instance), with a counter for fresh instances. -/
structure PState where
  deps : Digraph' String
  fins : List (String × List Nat)
  modules : List (String × Nat)
  next : Nat
deriving DecidableEq

/-- Result of a lifecycle operation: new state, events in order, errors in
order.  The operation "raises" exactly when `errs` is non-empty. -/
structure Res where
  st : PState
  evs : List Ev
  errs : List Err
deriving DecidableEq

/-- Character-list prefix test (semantics of `str.startswith`). -/
def prefixList : List Char → List Char → Bool
  | [], _ => true
  | _ :: _, [] => false
  | c :: cs, d :: ds => c == d && prefixList cs ds

/-- The plugins namespace constant. -/
def plugins_namespace : String := "plugins"

/-- `is_plugin`: `name.startswith(plugins_namespace + ".")`. -/
def is_plugin (name : String) : Bool :=
  prefixList (plugins_namespace ++ ".").toList name.toList

/-- `cont_finalizers`: run every remaining action in order; an action that
raises does not stop the rest (the source resumes the shared iterator in a
recursive call and re-raises afterwards).  Returns the invocation trace and
the raised errors, both in order. -/
def cont_finalizers (b : Beh) : List Nat → List Nat × List Err
  | [] => ([], [])
  | f :: rest =>
      let r := cont_finalizers b rest
      (f :: r.1, if b.finFails f then Err.finErr f :: r.2 else r.2)

/-- Delete the registry entry of `name` (`del finalizers[name]`). -/
def delFins (m : List (String × List Nat)) (name : String) : List (String × List Nat) :=
  m.filter (fun p => decide (p.1 ≠ name))

/-- Append newly registered finalizer actions under `name`, creating the key
only when at least one action is registered (the `finalizer` decorator creates
the entry on first registration). -/
def regFins (m : List (String × List Nat)) (name : String) (fs : List Nat) :
    List (String × List Nat) :=
  if fs = [] then m
  else match m with
    | [] => [(name, fs)]
    | p :: r => if p.1 = name then (p.1, p.2 ++ fs) :: r else p :: regFins r name fs

/-- `finalize_module`: no-op when `name` has no registered actions; otherwise
invoke every action in registration order even if some raise, delete the
entry after all actions have been attempted, and report the raised errors. -/
def finalize_module (b : Beh) (st : PState) (name : String) :
    PState × List Nat × List Err :=
  match aget st.fins name with
  | none => (st, [], [])
  | some l =>
      let r := cont_finalizers b l
      (⟨st.deps, delFins st.fins name, st.modules, st.next⟩, r.1, r.2)

/-- Remove `name` from `sys.modules` (`del sys.modules[name]`); the caller
checks presence separately because the deletion raises `KeyError` if absent. -/
def delModule (m : List (String × Nat)) (name : String) : List (String × Nat) :=
  m.filter (fun p => decide (p.1 ≠ name))

/-- `unsafe_unload`: reject non-plugins with `ValueError`; otherwise finalize,
and in the `finally` block delete the outgoing edges and remove the module
from the registry — both happen even when finalizers raised, and a missing
registry entry raises `KeyError` after the edges are already gone. -/
def unsafe_unload (b : Beh) (st : PState) (name : String) : Res :=
  if ¬ is_plugin name then ⟨st, [], [Err.valueErr name]⟩
  else
    let f := finalize_module b st name
    let st1 := f.1
    let st2 : PState := ⟨st1.deps.del_edges_from name, st1.fins, st1.modules, st1.next⟩
    if (aget st2.modules name).isSome then
      ⟨⟨st2.deps, st2.fins, delModule st2.modules name, st2.next⟩, [Ev.unl name], f.2.2⟩
    else
      ⟨st2, [Ev.unl name], f.2.2 ++ [Err.keyErr name]⟩

/-- Modelled from the spec: the host module system's `importlib.import_module`
on a plugin identity (spec §6: resolve the identity to source and execute it
with the dependency tracker active; a module already present in the registry
is returned as-is without executing).  The plugin body's behaviour comes from
the oracle `b.init`.  On success the discovered edges are recorded, the
registered finalizers appended, and the module recorded as loaded with a
fresh instance.  On failure `PluginLoader.exec_module` runs the finalizers
the body managed to register, deletes the partial outgoing edges, and the
module is left unregistered (source lines 87-102). -/
def import_module (b : Beh) (st : PState) (name : String) : Res × Option Nat :=
  match aget st.modules name with
  | some i => (⟨st, [], []⟩, some i)
  | none =>
      let s := b.init name
      let deps1 := s.imports.foldl (fun d mname => d.add_edge name mname) st.deps
      if s.ok then
        (⟨⟨deps1, regFins st.fins name s.fins, st.modules ++ [(name, st.next)], st.next + 1⟩,
          [Ev.imp name], []⟩, some st.next)
      else
        let interim : PState := ⟨deps1, regFins st.fins name s.fins, st.modules, st.next⟩
        let f := finalize_module b interim name
        (⟨⟨f.1.deps.del_edges_from name, f.1.fins, f.1.modules, f.1.next⟩,
          [Ev.imp name], Err.initErr name :: f.2.2⟩, none)

/-- `load`: usage error on non-plugins; return the existing instance unchanged
when already loaded; otherwise import. -/
def load (b : Beh) (st : PState) (name : String) : Res × Option Nat :=
  if ¬ is_plugin name then (⟨st, [], [Err.valueErr name]⟩, none)
  else match aget st.modules name with
    | some i => (⟨st, [], []⟩, some i)
    | none => import_module b st name

/-- The unload pass shared by `unload`'s loop: unsafe-unload every member of
the order except `name`, continuing past errors and concatenating them
(the source's recursive `cont_unload` over the shared generator). -/
def unloadPass (b : Beh) (name : String) : List String → PState → Res
  | [], st => ⟨st, [], []⟩
  | d :: ds, st =>
      if d = name then unloadPass b name ds st
      else
        let r := unsafe_unload b st d
        let rest := unloadPass b name ds r.st
        ⟨rest.st, r.evs ++ rest.evs, r.errs ++ rest.errs⟩

/-- `unload`: unsafe-unload everything with a path to `name` in forward
topological order, `name` excluded from the pass and unsafe-unloaded last;
all errors are reraised together. -/
def unload (b : Beh) (st : PState) (name : String) : Res :=
  let order := (st.deps.subgraph_paths_to name).topo_sort_fwd
  let p := unloadPass b name order st
  let f := unsafe_unload b p.st name
  ⟨f.st, p.evs ++ f.evs, p.errs ++ f.errs⟩

/-- The unload pass of `reload`: as `unloadPass` but also recording in
`unload_success` the members whose unsafe-unload completed without raising. -/
def reloadUnloadPass (b : Beh) (name : String) : List String → PState → Res × List String
  | [], st => (⟨st, [], []⟩, [])
  | d :: ds, st =>
      if d = name then reloadUnloadPass b name ds st
      else
        let r := unsafe_unload b st d
        let rest := reloadUnloadPass b name ds r.st
        (⟨rest.1.st, r.evs ++ rest.1.evs, r.errs ++ rest.1.errs⟩,
         (if r.errs = [] then [d] else []) ++ rest.2)

/-- The reload pass of `reload` (`cont_reload`): walk the backward topological
order; re-import exactly the members that were successfully unloaded and whose
direct dependencies within the subgraph are all in `reload_success`; a member
whose import raises is not added to `reload_success`; errors do not stop the
pass. -/
def reloadPass (b : Beh) (sub : Digraph' String) :
    List String → PState → List String → List String → Res × List String
  | [], st, _, rs => (⟨st, [], []⟩, rs)
  | d :: ds, st, us, rs =>
      if d ∈ us ∧ ∀ mdep ∈ adjOf sub.fwd d, mdep ∈ rs then
        let r := import_module b st d
        let rs' := if r.1.errs = [] then rs ++ [d] else rs
        let rest := reloadPass b sub ds r.1.st us rs'
        (⟨rest.1.st, r.1.evs ++ rest.1.evs, r.1.errs ++ rest.1.errs⟩, rest.2)
      else reloadPass b sub ds st us rs

/-- `reload`: compute the dependents subgraph, unload its members (except
`name`) in forward topological order recording successes, unsafe-unload
`name`, re-import `name` (skipped when its unsafe-unload raised), then run
the reload pass in backward topological order; the errors of all parts are
reraised together, and the new module of `name` is returned only when nothing
raised. -/
def reload (b : Beh) (st : PState) (name : String) : Res × Option Nat :=
  let sub := st.deps.subgraph_paths_to name
  let uorder := sub.topo_sort_fwd
  let rorder := sub.topo_sort_bck
  let p1 := reloadUnloadPass b name uorder st
  let fN := unsafe_unload b p1.1.st name
  if fN.errs = [] then
    let iN := import_module b fN.st name
    let rs0 := if iN.1.errs = [] then [name] else []
    let p2 := reloadPass b sub rorder iN.1.st p1.2 rs0
    let allErrs := p1.1.errs ++ iN.1.errs ++ p2.1.errs
    (⟨p2.1.st, p1.1.evs ++ fN.evs ++ iN.1.evs ++ p2.1.evs, allErrs⟩,
     if allErrs = [] then iN.2 else none)
  else
    let p2 := reloadPass b sub rorder fN.st p1.2 []
    (⟨p2.1.st, p1.1.evs ++ fN.evs ++ p2.1.evs, p1.1.errs ++ fN.errs ++ p2.1.errs⟩, none)

/-- The pass of `atexit_unload`: unsafe-unload every member of the list,
continuing past errors and aggregating them. -/
def atexitPass (b : Beh) : List String → PState → Res
  | [], st => ⟨st, [], []⟩
  | d :: ds, st =>
      let r := unsafe_unload b st d
      let rest := atexitPass b ds r.st
      ⟨rest.st, r.evs ++ rest.evs, r.errs ++ rest.errs⟩

/-- `atexit_unload`: materialize `topo_sort_fwd` of the dependency graph and
unsafe-unload each element, continuing past errors. -/
def atexit_unload (b : Beh) (st : PState) : Res :=
  atexitPass b (st.deps.topo_sort_fwd) st

/-- Readiness invariant of the traversal worklist: every pending emission can
rely on its adjacency being already seen or scheduled for visiting earlier in
the worklist (`avail` accumulates the vertices of the visit items walked
past). -/
def WlReady {V : Type} [DecidableEq V] (m : List (V × List V)) (seen : List V) :
    List V → List (TItem V) → Prop
  | _, [] => True
  | avail, TItem.visit y :: rest => WlReady m seen (avail ++ [y]) rest
  | avail, TItem.emit x :: rest =>
      (∀ u ∈ adjOf m x, u ∈ seen ∨ u ∈ avail) ∧ WlReady m seen avail rest

/-- Ancestry invariant of the traversal worklist: a pending emission of `z`
lies below every earlier worklist item in the depth-first call tree, so there
is an `m`-path from `z` to each earlier vertex (`ws` accumulates the vertices
walked past). -/
def WlPath {V : Type} [DecidableEq V] (m : List (V × List V)) :
    List V → List (TItem V) → Prop
  | _, [] => True
  | ws, TItem.visit y :: rest => WlPath m (ws ++ [y]) rest
  | ws, TItem.emit z :: rest => (∀ w ∈ ws, PathA m z w) ∧ WlPath m (ws ++ [z]) rest

/-- Ordering invariant of the accumulated output: every adjacency of an
emitted vertex is emitted earlier, or is still pending with a path back to
the emitted vertex. -/
def OutOrd {V : Type} [DecidableEq V] (m : List (V × List V)) (out : List V)
    (wl : List (TItem V)) : Prop :=
  ∀ pre v suf, out = pre ++ v :: suf → ∀ u ∈ adjOf m v,
    u ∈ pre ∨ (TItem.emit u ∈ wl ∧ PathA m u v)

/-- Decreasing potential of the traversal: worklist length plus, for each
unseen universe vertex, the work its expansion would schedule. -/
def tsPhi {V : Type} [DecidableEq V] (m : List (V × List V)) (U : List V)
    (wl : List (TItem V)) (seen : List V) : Nat :=
  wl.length + Finset.sum (U.toFinset \ seen.toFinset) (fun x => (adjOf m x).length + 1)

/-- Vertices of the pending emissions of a worklist, in order. -/
def grayList {V : Type} : List (TItem V) → List V :=
  List.filterMap (fun it => match it with
    | TItem.emit v => some v
    | TItem.visit _ => none)

/-- The maintained invariant of the topological-sort traversal. -/
structure TSInv {V : Type} [DecidableEq V] (m : List (V × List V)) (U : List V)
    (wl : List (TItem V)) (s : List V × List V) : Prop where
  hU : ∀ y, TItem.visit y ∈ wl → y ∈ U
  hseen : ∀ v, v ∈ s.1 ↔ (v ∈ s.2 ∨ TItem.emit v ∈ wl)
  hnodup : s.2.Nodup
  hgray_out : ∀ v, TItem.emit v ∈ wl → v ∉ s.2
  hgray_once : (grayList wl).Nodup
  hready : WlReady m s.1 [] wl
  hpath : WlPath m [] wl
  hord : OutOrd m s.2 wl

/-- Position of the first occurrence of `x` (length of the list when absent). -/
def idxOf {α : Type} [DecidableEq α] : List α → α → Nat
  | [], _ => 0
  | a :: l, x => if x = a then 0 else idxOf l x + 1

/-- All stored neighbour-set elements of a mapping, concatenated. -/
def valsList {V : Type} (m : List (V × List V)) : List V :=
  (m.map Prod.snd).flatten

/-- The maintained invariant of the `subgraph_paths_to` traversal, rooted at
`x0`: pending pairs are genuine incoming edges of already-seen vertices, the
edges collected so far are exactly the incoming edges of seen vertices except
the still-pending ones, every collected edge's source is already seen, and
every seen vertex other than the root is reachable from the root along the
followed mapping. -/
structure SPInv {V : Type} [DecidableEq V] (m : List (V × List V)) (U : List V) (x0 : V)
    (wl : List (V × V)) (s : Digraph' V × List V) : Prop where
  hU : ∀ p ∈ wl, p.1 ∈ U
  hpairs : ∀ p ∈ wl, p.2 ∈ s.2 ∧ p.1 ∈ adjOf m p.2
  hedge : ∀ a b, hasEdge s.1 a b → b ∈ s.2 ∧ a ∈ adjOf m b
  hcomplete : ∀ b ∈ s.2, ∀ a ∈ adjOf m b, hasEdge s.1 a b ∨ (a, b) ∈ wl
  hedge_src : ∀ a b, hasEdge s.1 a b → a ∈ s.2
  hreach : ∀ v ∈ s.2, v = x0 ∨ PathA m x0 v

/-- Potential of the `subgraph_paths_to` traversal. -/
def spPhi {V : Type} [DecidableEq V] (m : List (V × List V)) (U : List V)
    (wl : List (V × V)) (seen : List V) : Nat :=
  wl.length + Finset.sum (U.toFinset \ seen.toFinset) (fun v => (adjOf m v).length + 1)

@[simp]
theorem keysOf_nil {V β : Type} : keysOf ([] : List (V × β)) = [] := rfl

@[simp]
theorem keysOf_cons {V β : Type} (p : V × β) (m : List (V × β)) :
    keysOf (p :: m) = p.1 :: keysOf m := rfl

@[simp]
theorem keysOf_append {V β : Type} (m n : List (V × β)) :
    keysOf (m ++ n) = keysOf m ++ keysOf n := List.map_append _ _ _

theorem mem_keysOf_of_aget {V β : Type} [DecidableEq V] {m : List (V × β)} {x : V} {l : β}
    (h : aget m x = some l) : x ∈ keysOf m := by
  induction m with
  | nil => simp [aget] at h
  | cons p r ih =>
      simp only [aget] at h
      by_cases hx : x = p.1
      · simp [hx]
      · simp only [hx, if_false] at h
        simp [ih h]

theorem aget_eq_none {V β : Type} [DecidableEq V] {m : List (V × β)} {x : V}
    (h : x ∉ keysOf m) : aget m x = none := by
  induction m with
  | nil => rfl
  | cons p r ih =>
      simp only [keysOf_cons, List.mem_cons, not_or] at h
      simp [aget, h.1, ih h.2]

theorem adjOf_of_not_key {V : Type} [DecidableEq V] {m : List (V × List V)} {x : V}
    (h : x ∉ keysOf m) : adjOf m x = [] := by
  simp [adjOf, aget_eq_none h]

theorem key_of_adjOf_ne {V : Type} [DecidableEq V] {m : List (V × List V)} {x : V}
    (h : adjOf m x ≠ []) : x ∈ keysOf m := by
  by_contra hk
  exact h (adjOf_of_not_key hk)

theorem key_of_mem_adjOf {V : Type} [DecidableEq V] {m : List (V × List V)} {x a : V}
    (h : a ∈ adjOf m x) : x ∈ keysOf m := by
  apply key_of_adjOf_ne
  intro he
  rw [he] at h
  exact List.not_mem_nil a h

theorem mem_adjOf_entry {V : Type} [DecidableEq V] {m : List (V × List V)} {x a : V}
    (h : a ∈ adjOf m x) : ∃ p ∈ m, p.1 = x ∧ a ∈ p.2 := by
  induction m with
  | nil => simp [adjOf, aget] at h
  | cons p r ih =>
      simp only [adjOf, aget] at h
      by_cases hx : x = p.1
      · refine ⟨p, List.mem_cons_self _ _, hx.symm, ?_⟩
        simpa [hx] using h
      · simp only [hx, if_false] at h
        obtain ⟨q, hq, h1, h2⟩ := ih h
        exact ⟨q, List.mem_cons_of_mem _ hq, h1, h2⟩

theorem adjOf_addVal {V : Type} [DecidableEq V] (m : List (V × List V)) (x y z : V) :
    adjOf (addVal m x y) z =
      if z = x then (if y ∈ adjOf m x then adjOf m x else adjOf m x ++ [y])
      else adjOf m z := by
  induction m with
  | nil =>
      by_cases hz : z = x <;> simp [addVal, adjOf, aget, hz]
  | cons p r ih =>
      obtain ⟨k, vs⟩ := p
      simp only [addVal]
      by_cases hx : x = k
      · subst hx
        by_cases hz : z = x <;> simp [adjOf, aget, hz]
      · rw [if_neg hx]
        by_cases hz : z = k
        · subst hz
          have hkx : ¬ z = x := fun h => hx h.symm
          simp [adjOf, aget, hkx]
        · have h1 : adjOf ((k, vs) :: addVal r x y) z = adjOf (addVal r x y) z := by
            simp [adjOf, aget, hz]
          have h2 : adjOf ((k, vs) :: r) z = adjOf r z := by
            simp [adjOf, aget, hz]
          have h3 : adjOf ((k, vs) :: r) x = adjOf r x := by
            simp [adjOf, aget, hx]
          rw [h1, h2, h3, ih]

theorem mem_adjOf_addVal {V : Type} [DecidableEq V] {m : List (V × List V)} {x y z a : V} :
    a ∈ adjOf (addVal m x y) z ↔ a ∈ adjOf m z ∨ (z = x ∧ a = y) := by
  by_cases hz : z = x
  · subst hz
    rw [adjOf_addVal, if_pos rfl]
    by_cases hy : y ∈ adjOf m z
    · rw [if_pos hy]
      constructor
      · exact fun h => Or.inl h
      · rintro (h | ⟨-, h⟩)
        · exact h
        · exact h.symm ▸ hy
    · rw [if_neg hy, List.mem_append, List.mem_singleton]
      constructor
      · rintro (h | h)
        · exact Or.inl h
        · exact Or.inr ⟨rfl, h⟩
      · rintro (h | ⟨-, h⟩)
        · exact Or.inl h
        · exact Or.inr h
  · rw [adjOf_addVal, if_neg hz]
    simp [hz]

theorem keysOf_addVal {V : Type} [DecidableEq V] (m : List (V × List V)) (x y : V) :
    keysOf (addVal m x y) = if x ∈ keysOf m then keysOf m else keysOf m ++ [x] := by
  induction m with
  | nil => simp [addVal]
  | cons p r ih =>
      obtain ⟨k, vs⟩ := p
      simp only [addVal]
      by_cases hx : x = k
      · subst hx
        simp
      · have hne : ¬ x = k := hx
        by_cases hmem : x ∈ keysOf r <;>
          simp [hne, hmem, ih, Ne.symm hne]

theorem nodup_adjOf {V : Type} [DecidableEq V] {m : List (V × List V)}
    (h : ∀ p ∈ m, p.2.Nodup) (x : V) : (adjOf m x).Nodup := by
  induction m with
  | nil => simp [adjOf, aget]
  | cons p r ih =>
      simp only [adjOf, aget]
      by_cases hx : x = p.1
      · simpa [hx] using h p (List.mem_cons_self _ _)
      · simp only [hx, if_false]
        exact ih (fun q hq => h q (List.mem_cons_of_mem _ hq))

theorem adjOf_cons_ne {V : Type} [DecidableEq V] {p : V × List V} {r : List (V × List V)}
    {z : V} (h : ¬ z = p.1) : adjOf (p :: r) z = adjOf r z := by
  simp [adjOf, aget, h]

theorem adjOf_cons_eq {V : Type} [DecidableEq V] {p : V × List V} {r : List (V × List V)}
    {z : V} (h : z = p.1) : adjOf (p :: r) z = p.2 := by
  simp [adjOf, aget, h]

theorem adjOf_delKey {V : Type} [DecidableEq V] (m : List (V × List V)) (x z : V) :
    adjOf (delKey m x) z = if z = x then [] else adjOf m z := by
  induction m with
  | nil => by_cases hz : z = x <;> simp [delKey, adjOf, aget, hz]
  | cons p r ih =>
      simp only [delKey]
      by_cases hk : p.1 = x
      · rw [if_pos hk, ih]
        by_cases hz : z = x
        · simp [hz]
        · have hzp : ¬ z = p.1 := fun h => hz (h.trans hk)
          rw [if_neg hz, if_neg hz, adjOf_cons_ne hzp]
      · rw [if_neg hk]
        by_cases hz : z = p.1
        · have hzx : ¬ z = x := fun h => hk (hz ▸ h)
          rw [adjOf_cons_eq hz, if_neg hzx, adjOf_cons_eq hz]
        · rw [adjOf_cons_ne hz, ih, adjOf_cons_ne hz]

theorem delKey_sublist {V : Type} [DecidableEq V] (m : List (V × List V)) (x : V) :
    (delKey m x).Sublist m := by
  induction m with
  | nil => simp [delKey]
  | cons p r ih =>
      simp only [delKey]
      by_cases hk : p.1 = x
      · rw [if_pos hk]
        exact ih.trans (List.sublist_cons_self p r)
      · rw [if_neg hk]
        exact ih.cons₂ p

theorem nodupMap_delKey {V : Type} [DecidableEq V] {m : List (V × List V)} (x : V)
    (h : NodupMap m) : NodupMap (delKey m x) := by
  refine ⟨h.1.sublist ((delKey_sublist m x).map Prod.fst), fun p hp => ?_⟩
  exact h.2 p ((delKey_sublist m x).subset hp)

theorem adjOf_discardVal {V : Type} [DecidableEq V] (m : List (V × List V)) (x y z : V) :
    adjOf (discardVal m x y) z = if z = x then (adjOf m z).erase y else adjOf m z := by
  induction m with
  | nil => by_cases hz : z = x <;> simp [discardVal, adjOf, aget, hz]
  | cons p r ih =>
      have hstep : discardVal (p :: r) x y
          = (if p.1 = x then (p.1, p.2.erase y) else p) :: discardVal r x y := rfl
      rw [hstep]
      by_cases hk : p.1 = x
      · rw [if_pos hk]
        by_cases hz : z = p.1
        · have hzx : z = x := hz.trans hk
          rw [adjOf_cons_eq (p := (p.1, p.2.erase y)) hz, if_pos hzx,
            adjOf_cons_eq hz]
        · have hzx : ¬ z = x := fun h => hz (h.trans hk.symm)
          rw [adjOf_cons_ne (p := (p.1, p.2.erase y)) hz, ih, if_neg hzx, if_neg hzx,
            adjOf_cons_ne hz]
      · rw [if_neg hk]
        by_cases hz : z = p.1
        · have hzx : ¬ z = x := fun h => hk (hz ▸ h)
          rw [adjOf_cons_eq hz, if_neg hzx, adjOf_cons_eq hz]
        · rw [adjOf_cons_ne hz, ih, adjOf_cons_ne hz]

theorem keysOf_discardVal {V : Type} [DecidableEq V] (m : List (V × List V)) (x y : V) :
    keysOf (discardVal m x y) = keysOf m := by
  induction m with
  | nil => rfl
  | cons p r ih =>
      have hstep : discardVal (p :: r) x y
          = (if p.1 = x then (p.1, p.2.erase y) else p) :: discardVal r x y := rfl
      rw [hstep, keysOf_cons, keysOf_cons, ih]
      by_cases hk : p.1 = x
      · rw [if_pos hk]
      · rw [if_neg hk]

theorem nodupVals_discardVal {V : Type} [DecidableEq V] {m : List (V × List V)} {x y : V}
    (h : ∀ p ∈ m, p.2.Nodup) : ∀ p ∈ discardVal m x y, p.2.Nodup := by
  intro p hp
  simp only [discardVal, List.mem_map] at hp
  obtain ⟨q, hq, he⟩ := hp
  by_cases hq1 : q.1 = x
  · rw [if_pos hq1] at he
    rw [← he]
    exact (h q hq).erase y
  · rw [if_neg hq1] at he
    rw [← he]
    exact h q hq

theorem keysOf_discardFold {V : Type} [DecidableEq V] (ys : List V)
    (m : List (V × List V)) (x : V) :
    keysOf (ys.foldl (fun b y => discardVal b y x) m) = keysOf m := by
  induction ys generalizing m with
  | nil => rfl
  | cons y ys ih => rw [List.foldl_cons, ih, keysOf_discardVal]

theorem nodupVals_discardFold {V : Type} [DecidableEq V] (ys : List V)
    {m : List (V × List V)} (x : V) (h : ∀ p ∈ m, p.2.Nodup) :
    ∀ p ∈ ys.foldl (fun b y => discardVal b y x) m, p.2.Nodup := by
  induction ys generalizing m with
  | nil => exact h
  | cons y ys ih => exact ih (nodupVals_discardVal h)

theorem mem_adjOf_discardFold {V : Type} [DecidableEq V] (ys : List V)
    {m : List (V × List V)} {x z a : V} (h : ∀ p ∈ m, p.2.Nodup) :
    a ∈ adjOf (ys.foldl (fun b y => discardVal b y x) m) z
      ↔ a ∈ adjOf m z ∧ ¬ (z ∈ ys ∧ a = x) := by
  induction ys generalizing m with
  | nil => simp
  | cons y ys ih =>
      rw [List.foldl_cons, ih (nodupVals_discardVal h)]
      rw [adjOf_discardVal]
      by_cases hz : z = y
      · subst hz
        rw [if_pos rfl, (nodup_adjOf h z).mem_erase_iff]
        constructor
        · rintro ⟨⟨h1, h2⟩, h3⟩
          exact ⟨h2, by rintro ⟨-, h4⟩; exact h1 h4⟩
        · rintro ⟨h1, h2⟩
          refine ⟨⟨fun h3 => h2 ⟨List.mem_cons.mpr (Or.inl rfl), h3⟩, h1⟩, ?_⟩
          rintro ⟨h3, h4⟩
          exact h2 ⟨List.mem_cons.mpr (Or.inr h3), h4⟩
      · rw [if_neg hz]
        constructor
        · rintro ⟨h1, h2⟩
          refine ⟨h1, ?_⟩
          rintro ⟨h3, h4⟩
          rcases List.mem_cons.mp h3 with h5 | h5
          · exact hz h5
          · exact h2 ⟨h5, h4⟩
        · rintro ⟨h1, h2⟩
          refine ⟨h1, ?_⟩
          rintro ⟨h3, h4⟩
          exact h2 ⟨List.mem_cons.mpr (Or.inr h3), h4⟩

theorem aget_of_mem_nodup {V β : Type} [DecidableEq V] {m : List (V × β)} {p : V × β}
    (hk : (keysOf m).Nodup) (hp : p ∈ m) : aget m p.1 = some p.2 := by
  induction m with
  | nil => cases hp
  | cons q r ih =>
      rcases List.mem_cons.mp hp with h | h
      · subst h
        simp [aget]
      · have hq : ¬ p.1 = q.1 := by
          intro he
          have : q.1 ∈ keysOf r := he ▸ (List.mem_map.mpr ⟨p, h, rfl⟩)
          exact (List.nodup_cons.mp hk).1 this
        simp only [aget, hq, if_false]
        exact ih (List.nodup_cons.mp hk).2 h

theorem mem_adjOf_iff_entry {V : Type} [DecidableEq V] {m : List (V × List V)} {z a : V}
    (hk : (keysOf m).Nodup) :
    a ∈ adjOf m z ↔ ∃ p ∈ m, p.1 = z ∧ a ∈ p.2 := by
  constructor
  · exact mem_adjOf_entry
  · rintro ⟨p, hp, rfl, ha⟩
    have := aget_of_mem_nodup hk hp
    simp [adjOf, this, ha]

theorem ginv_dir_iff {V : Type} [DecidableEq V] {m m' : List (V × List V)}
    (hk : (keysOf m).Nodup) :
    (∀ p ∈ m, ∀ y ∈ p.2, p.1 ∈ adjOf m' y) ↔ (∀ z a, a ∈ adjOf m z → z ∈ adjOf m' a) := by
  constructor
  · intro h z a ha
    obtain ⟨p, hp, h1, h2⟩ := mem_adjOf_entry ha
    exact h1 ▸ h p hp a h2
  · intro h p hp y hy
    exact h p.1 y ((mem_adjOf_iff_entry hk).mpr ⟨p, hp, rfl, hy⟩)

theorem nodupVals_addVal {V : Type} [DecidableEq V] {m : List (V × List V)} {x y : V}
    (h : ∀ p ∈ m, p.2.Nodup) : ∀ p ∈ addVal m x y, p.2.Nodup := by
  induction m with
  | nil =>
      rintro p hp
      rcases List.mem_cons.mp hp with h1 | h1
      · subst h1; simp
      · cases h1
  | cons q r ih =>
      obtain ⟨k, vs⟩ := q
      intro p hp
      simp only [addVal] at hp
      by_cases hx : x = k
      · rw [if_pos hx] at hp
        rcases List.mem_cons.mp hp with h1 | h1
        · subst h1
          by_cases hy : y ∈ vs
          · simpa [hy] using h (k, vs) (List.mem_cons_self _ _)
          · have hvs : vs.Nodup := h (k, vs) (List.mem_cons_self _ _)
            simp [hy, List.nodup_append, hvs]
        · exact h p (List.mem_cons_of_mem _ h1)
      · rw [if_neg hx] at hp
        rcases List.mem_cons.mp hp with h1 | h1
        · subst h1
          exact h (k, vs) (List.mem_cons_self _ _)
        · exact ih (fun q hq => h q (List.mem_cons_of_mem _ hq)) p h1

theorem nodupMap_addVal {V : Type} [DecidableEq V] {m : List (V × List V)} (x y : V)
    (h : NodupMap m) : NodupMap (addVal m x y) := by
  refine ⟨?_, nodupVals_addVal h.2⟩
  rw [keysOf_addVal]
  by_cases hx : x ∈ keysOf m
  · simpa [hx] using h.1
  · simp only [hx, if_false]
    simp [List.nodup_append, h.1, hx]

theorem ginv_empty {V : Type} [DecidableEq V] : GInv (Digraph'.empty : Digraph' V) := by
  refine ⟨⟨List.nodup_nil, ?_⟩, ⟨List.nodup_nil, ?_⟩, ?_, ?_⟩ <;> simp [Digraph'.empty]

theorem ginv_add_edge {V : Type} [DecidableEq V] {g : Digraph' V} (x y : V)
    (h : GInv g) : GInv (g.add_edge x y) := by
  obtain ⟨hf, hb, h1, h2⟩ := h
  have hf' : NodupMap (addVal g.fwd x y) := nodupMap_addVal x y hf
  have hb' : NodupMap (addVal g.bck y x) := nodupMap_addVal y x hb
  refine ⟨hf', hb', ?_, ?_⟩
  · show ∀ p ∈ addVal g.fwd x y, ∀ a ∈ p.2, p.1 ∈ adjOf (addVal g.bck y x) a
    rw [ginv_dir_iff hf'.1]
    intro z a ha
    rcases mem_adjOf_addVal.mp ha with h3 | ⟨h3, h4⟩
    · exact mem_adjOf_addVal.mpr (Or.inl (((ginv_dir_iff hf.1).mp h1) z a h3))
    · exact mem_adjOf_addVal.mpr (Or.inr ⟨h4, h3⟩)
  · show ∀ p ∈ addVal g.bck y x, ∀ a ∈ p.2, p.1 ∈ adjOf (addVal g.fwd x y) a
    rw [ginv_dir_iff hb'.1]
    intro z a ha
    rcases mem_adjOf_addVal.mp ha with h3 | ⟨h3, h4⟩
    · exact mem_adjOf_addVal.mpr (Or.inl (((ginv_dir_iff hb.1).mp h2) z a h3))
    · exact mem_adjOf_addVal.mpr (Or.inr ⟨h4, h3⟩)

theorem ginv_del_edges_from {V : Type} [DecidableEq V] {g : Digraph' V} (x : V)
    (h : GInv g) : GInv (g.del_edges_from x) := by
  obtain ⟨hf, hb, h1, h2⟩ := h
  unfold Digraph'.del_edges_from
  by_cases hx : x ∈ keysOf g.fwd
  · rw [if_pos hx]
    have hf' : NodupMap (delKey g.fwd x) := nodupMap_delKey x ⟨hf.1, hf.2⟩
    have hb' : NodupMap ((adjOf g.fwd x).foldl (fun b y => discardVal b y x) g.bck) := by
      refine ⟨?_, nodupVals_discardFold _ x hb.2⟩
      rw [keysOf_discardFold]
      exact hb.1
    refine ⟨hf', hb', ?_, ?_⟩
    · rw [ginv_dir_iff hf'.1]
      intro z a ha
      rw [adjOf_delKey] at ha
      by_cases hz : z = x
      · rw [if_pos hz] at ha; cases ha
      · rw [if_neg hz] at ha
        rw [mem_adjOf_discardFold _ hb.2]
        refine ⟨((ginv_dir_iff hf.1).mp h1) z a ha, ?_⟩
        rintro ⟨-, h3⟩
        exact hz h3
    · rw [ginv_dir_iff hb'.1]
      intro z a ha
      rw [mem_adjOf_discardFold _ hb.2] at ha
      obtain ⟨ha, hno⟩ := ha
      have hzf : z ∈ adjOf g.fwd a := ((ginv_dir_iff hb.1).mp h2) z a ha
      rw [adjOf_delKey]
      by_cases hax : a = x
      · exact absurd ⟨hax ▸ hzf, hax⟩ hno
      · rw [if_neg hax]
        exact hzf
  · rw [if_neg hx]
    exact ⟨hf, hb, h1, h2⟩

theorem ginv_del_edges_to {V : Type} [DecidableEq V] {g : Digraph' V} (x : V)
    (h : GInv g) : GInv (g.del_edges_to x) := by
  obtain ⟨hf, hb, h1, h2⟩ := h
  unfold Digraph'.del_edges_to
  by_cases hx : x ∈ keysOf g.bck
  · rw [if_pos hx]
    have hb' : NodupMap (delKey g.bck x) := nodupMap_delKey x ⟨hb.1, hb.2⟩
    have hf' : NodupMap ((adjOf g.bck x).foldl (fun f y => discardVal f y x) g.fwd) := by
      refine ⟨?_, nodupVals_discardFold _ x hf.2⟩
      rw [keysOf_discardFold]
      exact hf.1
    refine ⟨hf', hb', ?_, ?_⟩
    · rw [ginv_dir_iff hf'.1]
      intro z a ha
      rw [mem_adjOf_discardFold _ hf.2] at ha
      obtain ⟨ha, hno⟩ := ha
      have hzb : z ∈ adjOf g.bck a := ((ginv_dir_iff hf.1).mp h1) z a ha
      rw [adjOf_delKey]
      by_cases hax : a = x
      · exact absurd ⟨hax ▸ hzb, hax⟩ hno
      · rw [if_neg hax]
        exact hzb
    · rw [ginv_dir_iff hb'.1]
      intro z a ha
      rw [adjOf_delKey] at ha
      by_cases hz : z = x
      · rw [if_pos hz] at ha; cases ha
      · rw [if_neg hz] at ha
        rw [mem_adjOf_discardFold _ hf.2]
        refine ⟨((ginv_dir_iff hb.1).mp h2) z a ha, ?_⟩
        rintro ⟨-, h3⟩
        exact hz h3
  · rw [if_neg hx]
    exact ⟨hf, hb, h1, h2⟩

theorem ginv_applyOps {V : Type} [DecidableEq V] (ops : List (GOp V)) :
    GInv (applyOps ops) := by
  suffices h : ∀ (g : Digraph' V), GInv g → GInv (ops.foldl applyOp g) from
    h Digraph'.empty ginv_empty
  induction ops with
  | nil => exact fun g hg => hg
  | cons op ops ih =>
      intro g hg
      rw [List.foldl_cons]
      refine ih _ ?_
      cases op with
      | add a b => exact ginv_add_edge a b hg
      | delFrom a => exact ginv_del_edges_from a hg
      | delTo a => exact ginv_del_edges_to a hg

theorem ginv_hasEdge_iff {V : Type} [DecidableEq V] {g : Digraph' V} (h : GInv g)
    (a b : V) : hasEdge g a b ↔ a ∈ adjOf g.bck b := by
  constructor
  · exact fun he => ((ginv_dir_iff h.1.1).mp h.2.2.1) a b he
  · exact fun he => ((ginv_dir_iff h.2.1.1).mp h.2.2.2) b a he

theorem edge_endpoint_keys {V : Type} [DecidableEq V] {g : Digraph' V} (h : GInv g)
    {x y : V} (he : hasEdge g x y) : x ∈ keysOf g.fwd ∧ y ∈ keysOf g.bck := by
  refine ⟨key_of_mem_adjOf he, ?_⟩
  exact key_of_mem_adjOf ((ginv_hasEdge_iff h x y).mp he)

/-- C4 (counterexample): after `add_edge 0 1; del_edges_from 0` the identity 1
is still a key of the backward mapping although it has no incident edge, so
the claimed "key iff at least one incident edge" invariant (conjoined with
the rest of the claimed invariant) fails on this reachable state. -/
theorem C4_counterexample :
    ¬ (KeyIffEdge (applyOps [GOp.add 0 1, GOp.delFrom 0]) ∧
       GInv (applyOps [GOp.add 0 1, GOp.delFrom 0])) := by
  decide

/-- C4 (amended): for every sequence of `add_edge`, `del_edges_from`,
`del_edges_to` starting from the empty graph, the two mappings are mutual
inverses with duplicate-free keys and neighbour sets, and every identity with
an incident edge is a key of the corresponding mapping; the converse (a key
always has an incident edge) is the part refuted by the counterexample:
edge deletion may leave a key with an empty neighbour set in the opposite
mapping. -/
theorem C4_digraph_invariants {V : Type} [DecidableEq V] (ops : List (GOp V)) :
    GInv (applyOps ops) ∧
      ∀ x y, hasEdge (applyOps ops) x y →
        x ∈ keysOf (applyOps ops).fwd ∧ y ∈ keysOf (applyOps ops).bck := by
  refine ⟨ginv_applyOps ops, fun x y he => edge_endpoint_keys (ginv_applyOps ops) he⟩

theorem wlReady_mono {V : Type} [DecidableEq V] {m : List (V × List V)}
    {seen seen' avail avail' : List V} {wl : List (TItem V)}
    (h : WlReady m seen avail wl)
    (hs : ∀ a ∈ seen, a ∈ seen') (ha : ∀ a ∈ avail, a ∈ seen' ∨ a ∈ avail') :
    WlReady m seen' avail' wl := by
  induction wl generalizing avail avail' with
  | nil => trivial
  | cons it rest ih =>
      cases it with
      | visit y =>
          exact ih h (fun a hmem => by
            rcases List.mem_append.mp hmem with h1 | h1
            · rcases ha a h1 with h2 | h2
              · exact Or.inl h2
              · exact Or.inr (List.mem_append.mpr (Or.inl h2))
            · exact Or.inr (List.mem_append.mpr (Or.inr h1)))
      | emit x =>
          obtain ⟨h1, h2⟩ := h
          refine ⟨fun u hu => ?_, ih h2 ha⟩
          rcases h1 u hu with h3 | h3
          · exact Or.inl (hs u h3)
          · exact ha u h3

theorem wlPath_anti {V : Type} [DecidableEq V] {m : List (V × List V)}
    {ws ws' : List V} {wl : List (TItem V)}
    (h : WlPath m ws wl) (hw : ∀ a ∈ ws', a ∈ ws) : WlPath m ws' wl := by
  induction wl generalizing ws ws' with
  | nil => trivial
  | cons it rest ih =>
      cases it with
      | visit y =>
          exact ih h (fun a hmem => by
            rcases List.mem_append.mp hmem with h1 | h1
            · exact List.mem_append.mpr (Or.inl (hw a h1))
            · exact List.mem_append.mpr (Or.inr h1))
      | emit z =>
          obtain ⟨h1, h2⟩ := h
          refine ⟨fun w hwmem => h1 w (hw w hwmem), ih h2 ?_⟩
          intro a hmem
          rcases List.mem_append.mp hmem with h3 | h3
          · exact List.mem_append.mpr (Or.inl (hw a h3))
          · exact List.mem_append.mpr (Or.inr h3)

theorem wlPath_mono {V : Type} [DecidableEq V] {m : List (V × List V)}
    {ws ws' : List V} {wl : List (TItem V)}
    (h : WlPath m ws wl)
    (hw : ∀ w' ∈ ws', ∀ z : V, (∀ w ∈ ws, PathA m z w) → PathA m z w') :
    WlPath m ws' wl := by
  induction wl generalizing ws ws' with
  | nil => trivial
  | cons it rest ih =>
      cases it with
      | visit y =>
          refine ih h ?_
          intro w' hw' z hz
          rcases List.mem_append.mp hw' with h1 | h1
          · exact hw w' h1 z (fun w hwmem => hz w (List.mem_append.mpr (Or.inl hwmem)))
          · rcases List.mem_singleton.mp h1 with rfl
            exact hz w' (List.mem_append.mpr (Or.inr (List.mem_singleton.mpr rfl)))
      | emit z0 =>
          obtain ⟨h1, h2⟩ := h
          refine ⟨fun w' hw' => hw w' hw' z0 h1, ih h2 ?_⟩
          intro w' hw' z hz
          rcases List.mem_append.mp hw' with h3 | h3
          · exact hw w' h3 z (fun w hwmem => hz w (List.mem_append.mpr (Or.inl hwmem)))
          · rcases List.mem_singleton.mp h3 with rfl
            exact hz w' (List.mem_append.mpr (Or.inr (List.mem_singleton.mpr rfl)))

theorem wlPath_emit_path {V : Type} [DecidableEq V] {m : List (V × List V)}
    {ws : List V} {wl : List (TItem V)} {u : V}
    (h : WlPath m ws wl) (hu : TItem.emit u ∈ wl) : ∀ w ∈ ws, PathA m u w := by
  induction wl generalizing ws with
  | nil => cases hu
  | cons it rest ih =>
      cases it with
      | visit y =>
          have hu' : TItem.emit u ∈ rest := by
            rcases List.mem_cons.mp hu with h1 | h1
            · cases h1
            · exact h1
          exact fun w hw => ih h hu' w (List.mem_append.mpr (Or.inl hw))
      | emit z =>
          obtain ⟨h1, h2⟩ := h
          rcases List.mem_cons.mp hu with h3 | h3
          · cases h3
            exact h1
          · exact fun w hw => ih h2 h3 w (List.mem_append.mpr (Or.inl hw))

theorem wlReady_visits_append {V : Type} [DecidableEq V] {m : List (V × List V)}
    {seen avail : List V} {wl : List (TItem V)} (ys : List V)
    (h : WlReady m seen (avail ++ ys) wl) :
    WlReady m seen avail (ys.map TItem.visit ++ wl) := by
  induction ys generalizing avail with
  | nil => simpa using h
  | cons y ys ih =>
      show WlReady m seen (avail ++ [y]) (ys.map TItem.visit ++ wl)
      refine ih ?_
      simpa [List.append_assoc] using h

theorem wlPath_visits_append {V : Type} [DecidableEq V] {m : List (V × List V)}
    {ws : List V} {wl : List (TItem V)} (ys : List V)
    (h : WlPath m (ws ++ ys) wl) :
    WlPath m ws (ys.map TItem.visit ++ wl) := by
  induction ys generalizing ws with
  | nil => simpa using h
  | cons y ys ih =>
      show WlPath m (ws ++ [y]) (ys.map TItem.visit ++ wl)
      refine ih ?_
      simpa [List.append_assoc] using h

theorem snoc_split {α : Type} {out pre suf : List α} {x v : α}
    (h : out ++ [x] = pre ++ v :: suf) :
    (pre = out ∧ v = x ∧ suf = []) ∨ (∃ suf', suf = suf' ++ [x] ∧ out = pre ++ v :: suf') := by
  rcases List.eq_nil_or_concat suf with rfl | ⟨suf', x', rfl⟩
  · have hlen : ([x] : List α).length = ([v] : List α).length := by simp
    obtain ⟨h1, h2⟩ := List.append_inj' h hlen
    have h3 : v = x := by
      injection h2 with h4 h5
      exact h4.symm
    exact Or.inl ⟨h1.symm, h3, rfl⟩
  · have h2 : out ++ [x] = (pre ++ v :: suf') ++ [x'] := by
      rw [h]; simp
    have hlen : ([x] : List α).length = ([x'] : List α).length := by simp
    obtain ⟨h3, h4⟩ := List.append_inj' h2 hlen
    have h5 : x = x' := by
      injection h4
    exact Or.inr ⟨suf', by rw [List.concat_eq_append, h5], h3⟩

theorem sum_adjOf_le {V : Type} [DecidableEq V] (m : List (V × List V)) (s : Finset V) :
    Finset.sum s (fun x => (adjOf m x).length) ≤ valsLen m := by
  induction m generalizing s with
  | nil =>
      have hz : ∀ x ∈ s, (adjOf ([] : List (V × List V)) x).length = 0 := by
        intro x _
        simp [adjOf, aget]
      rw [Finset.sum_congr rfl hz]
      simp [valsLen]
  | cons p r ih =>
      have hv : valsLen (p :: r) = p.2.length + valsLen r := by
        simp [valsLen]
      by_cases hk : p.1 ∈ s
      · have hsplit := (Finset.add_sum_erase s (fun x => (adjOf (p :: r) x).length) hk).symm
        have h1 : (adjOf (p :: r) p.1).length = p.2.length := by
          rw [adjOf_cons_eq rfl]
        have h2 : Finset.sum (s.erase p.1) (fun x => (adjOf (p :: r) x).length)
            = Finset.sum (s.erase p.1) (fun x => (adjOf r x).length) := by
          refine Finset.sum_congr rfl ?_
          intro x hx
          rw [adjOf_cons_ne (Finset.mem_erase.mp hx).1]
        rw [hsplit, h1, h2, hv]
        exact Nat.add_le_add_left (ih (s.erase p.1)) p.2.length
      · have h2 : Finset.sum s (fun x => (adjOf (p :: r) x).length)
            = Finset.sum s (fun x => (adjOf r x).length) := by
          refine Finset.sum_congr rfl ?_
          intro x hx
          have : ¬ x = p.1 := fun he => hk (he ▸ hx)
          rw [adjOf_cons_ne this]
        rw [h2, hv]
        exact le_trans (ih s) (Nat.le_add_left _ _)

theorem sdiff_toFinset_append {V : Type} [DecidableEq V] (U seen : List V) (x : V) :
    U.toFinset \ (seen ++ [x]).toFinset = (U.toFinset \ seen.toFinset).erase x := by
  ext a
  simp only [Finset.mem_sdiff, Finset.mem_erase, List.mem_toFinset, List.mem_append,
    List.mem_singleton]
  tauto

theorem tsPhi_cons {V : Type} [DecidableEq V] (m : List (V × List V)) (U : List V)
    (it : TItem V) (wl : List (TItem V)) (seen : List V) :
    tsPhi m U (it :: wl) seen = tsPhi m U wl seen + 1 := by
  simp only [tsPhi, List.length_cons]
  omega

theorem tsPhi_push {V : Type} [DecidableEq V] (m : List (V × List V)) (U : List V)
    {x : V} (wl : List (TItem V)) {seen : List V} (hxU : x ∈ U) (hxs : x ∉ seen) :
    tsPhi m U (TItem.visit x :: wl) seen
      = tsPhi m U ((adjOf m x).map TItem.visit ++ TItem.emit x :: wl) (seen ++ [x]) + 1 := by
  have hxD : x ∈ U.toFinset \ seen.toFinset := by
    simp [List.mem_toFinset, hxU, hxs]
  have hsplit := (Finset.add_sum_erase (U.toFinset \ seen.toFinset)
    (fun v => (adjOf m v).length + 1) hxD).symm
  simp only [tsPhi, sdiff_toFinset_append, List.length_cons, List.length_append,
    List.length_map]
  omega

theorem mem_grayList {V : Type} {wl : List (TItem V)} {v : V} :
    v ∈ grayList wl ↔ TItem.emit v ∈ wl := by
  induction wl with
  | nil => simp [grayList]
  | cons it rest ih =>
      cases it with
      | visit y =>
          simp only [grayList, List.filterMap_cons] at ih ⊢
          simp [ih]
      | emit z =>
          simp only [grayList, List.filterMap_cons] at ih ⊢
          simp [ih, List.mem_cons]

theorem grayList_visits {V : Type} (ys : List V) (wl : List (TItem V)) :
    grayList (ys.map TItem.visit ++ wl) = grayList wl := by
  induction ys with
  | nil => simp
  | cons y ys ih =>
      simp only [List.map_cons, List.cons_append, grayList, List.filterMap_cons] at ih ⊢
      exact ih

theorem emit_mem_visits_append {V : Type} {ys : List V} {wl : List (TItem V)} {v : V} :
    TItem.emit v ∈ ys.map TItem.visit ++ wl ↔ TItem.emit v ∈ wl := by
  rw [← mem_grayList, grayList_visits, mem_grayList]

theorem visit_mem_map_visit {V : Type} {ys : List V} {y : V} :
    TItem.visit y ∈ ys.map TItem.visit ↔ y ∈ ys := by
  constructor
  · intro h
    obtain ⟨a, ha, he⟩ := List.mem_map.mp h
    cases he
    exact ha
  · intro h
    exact List.mem_map.mpr ⟨y, h, rfl⟩

theorem tsGo_nil {V : Type} [DecidableEq V] (m : List (V × List V)) (fuel : Nat)
    (s : List V × List V) : tsGo m fuel [] s = s := by
  cases fuel <;> rfl

theorem tsGo_visit_seen {V : Type} [DecidableEq V] (m : List (V × List V)) (fuel : Nat)
    {x : V} (rest : List (TItem V)) {s : List V × List V} (h : x ∈ s.1) :
    tsGo m (fuel+1) (TItem.visit x :: rest) s = tsGo m fuel rest s := by
  simp [tsGo, h]

theorem tsGo_visit_new {V : Type} [DecidableEq V] (m : List (V × List V)) (fuel : Nat)
    {x : V} (rest : List (TItem V)) {s : List V × List V} (h : x ∉ s.1) :
    tsGo m (fuel+1) (TItem.visit x :: rest) s
      = tsGo m fuel ((adjOf m x).map TItem.visit ++ TItem.emit x :: rest)
          (s.1 ++ [x], s.2) := by
  simp [tsGo, h]

theorem tsGo_emit {V : Type} [DecidableEq V] (m : List (V × List V)) (fuel : Nat)
    {x : V} (rest : List (TItem V)) (s : List V × List V) :
    tsGo m (fuel+1) (TItem.emit x :: rest) s = tsGo m fuel rest (s.1, s.2 ++ [x]) := rfl

theorem tsGo_spec {V : Type} [DecidableEq V] (m : List (V × List V)) (U : List V)
    (hUm : ∀ p ∈ m, ∀ y ∈ p.2, y ∈ U)
    (hAc : ∀ v, ¬ PathA m v v) :
    ∀ (fuel : Nat) (wl : List (TItem V)) (s : List V × List V),
      TSInv m U wl s → tsPhi m U wl s.1 < fuel →
      (∃ d1, (tsGo m fuel wl s).1 = s.1 ++ d1) ∧
      (∃ d2, (tsGo m fuel wl s).2 = s.2 ++ d2) ∧
      (∀ y, TItem.visit y ∈ wl → y ∈ (tsGo m fuel wl s).1) ∧
      (∀ v, TItem.emit v ∈ wl → v ∈ (tsGo m fuel wl s).2) ∧
      (∀ v, v ∈ (tsGo m fuel wl s).1 → v ∈ s.1 ∨ v ∈ U) ∧
      TSInv m U [] (tsGo m fuel wl s) := by
  intro fuel
  induction fuel with
  | zero =>
      intro wl s _ hphi
      exact absurd hphi (Nat.not_lt_zero _)
  | succ fuel ih =>
      intro wl s hinv hphi
      match wl with
      | [] =>
          rw [tsGo_nil]
          refine ⟨⟨[], by simp⟩, ⟨[], by simp⟩, ?_, ?_, ?_, hinv⟩
          · intro y hy; cases hy
          · intro v hv; cases hv
          · intro v hv; exact Or.inl hv
      | TItem.visit x :: rest =>
          by_cases hx : x ∈ s.1
          · -- the source's dfs returns immediately: x already seen
            rw [tsGo_visit_seen m fuel rest hx]
            have hinv' : TSInv m U rest s := by
              refine ⟨fun y hy => hinv.hU y (List.mem_cons_of_mem _ hy), ?_,
                hinv.hnodup, ?_, ?_, ?_, ?_, ?_⟩
              · intro v
                rw [hinv.hseen v]
                simp
              · intro v hv
                exact hinv.hgray_out v (List.mem_cons_of_mem _ hv)
              · have : grayList (TItem.visit x :: rest) = grayList rest := by
                  simp [grayList, List.filterMap_cons]
                exact this ▸ hinv.hgray_once
              · have h0 : WlReady m s.1 ([] ++ [x]) rest := hinv.hready
                refine wlReady_mono h0 (fun a ha => ha) ?_
                intro a ha
                rcases List.mem_append.mp ha with h1 | h1
                · cases h1
                · rcases List.mem_singleton.mp h1 with rfl
                  exact Or.inl hx
              · have h0 : WlPath m ([] ++ [x]) rest := hinv.hpath
                exact wlPath_anti h0 (fun a ha => by cases ha)
              · intro pre v suf hsplit u hu
                rcases hinv.hord pre v suf hsplit u hu with h1 | ⟨h1, h2⟩
                · exact Or.inl h1
                · refine Or.inr ⟨?_, h2⟩
                  rcases List.mem_cons.mp h1 with h3 | h3
                  · cases h3
                  · exact h3
            have hphi' : tsPhi m U rest s.1 < fuel := by
              have := tsPhi_cons m U (TItem.visit x) rest s.1
              omega
            obtain ⟨c1, c2, c3, c4, c5, c6⟩ := ih rest s hinv' hphi'
            refine ⟨c1, c2, ?_, ?_, c5, c6⟩
            · intro y hy
              rcases List.mem_cons.mp hy with h1 | h1
              · cases h1
                obtain ⟨d1, hd1⟩ := c1
                rw [hd1]
                exact List.mem_append.mpr (Or.inl hx)
              · exact c3 y h1
            · intro v hv
              rcases List.mem_cons.mp hv with h1 | h1
              · cases h1
              · exact c4 v h1
          · -- the source's dfs enters: mark x seen, schedule neighbours then the yield
            rw [tsGo_visit_new m fuel rest hx]
            have hxU : x ∈ U := hinv.hU x (List.mem_cons_self _ _)
            have hxnotout : x ∉ s.2 := fun h => hx ((hinv.hseen x).mpr (Or.inl h))
            have hxnotgray : TItem.emit x ∉ rest := by
              intro h
              exact hx ((hinv.hseen x).mpr (Or.inr (List.mem_cons_of_mem _ h)))
            have hadjU : ∀ u ∈ adjOf m x, u ∈ U := by
              intro u hu
              obtain ⟨p, hp, h1, h2⟩ := mem_adjOf_entry hu
              exact hUm p hp u h2
            have hinv' : TSInv m U ((adjOf m x).map TItem.visit ++ TItem.emit x :: rest)
                (s.1 ++ [x], s.2) := by
              refine ⟨?_, ?_, hinv.hnodup, ?_, ?_, ?_, ?_, ?_⟩
              · intro y hy
                rcases List.mem_append.mp hy with h1 | h1
                · exact hadjU y (visit_mem_map_visit.mp h1)
                · rcases List.mem_cons.mp h1 with h2 | h2
                  · cases h2
                  · exact hinv.hU y (List.mem_cons_of_mem _ h2)
              · intro v
                show v ∈ s.1 ++ [x] ↔ _
                rw [List.mem_append, List.mem_singleton, emit_mem_visits_append]
                by_cases hv : v = x
                · subst hv
                  simp
                · constructor
                  · rintro (h1 | h1)
                    · rcases (hinv.hseen v).mp h1 with h2 | h2
                      · exact Or.inl h2
                      · rcases List.mem_cons.mp h2 with h3 | h3
                        · cases h3
                        · exact Or.inr (List.mem_cons_of_mem _ h3)
                    · exact absurd h1 hv
                  · rintro (h1 | h1)
                    · exact Or.inl ((hinv.hseen v).mpr (Or.inl h1))
                    · rcases List.mem_cons.mp h1 with h3 | h3
                      · cases h3; exact absurd rfl hv
                      · exact Or.inl ((hinv.hseen v).mpr
                          (Or.inr (List.mem_cons_of_mem _ h3)))
              · intro v hv
                rw [emit_mem_visits_append] at hv
                rcases List.mem_cons.mp hv with h1 | h1
                · cases h1
                  exact hxnotout
                · exact hinv.hgray_out v (List.mem_cons_of_mem _ h1)
              · rw [grayList_visits]
                have heq : grayList (TItem.emit x :: rest) = x :: grayList rest := by
                  simp [grayList, List.filterMap_cons]
                rw [heq, List.nodup_cons]
                have heq2 : grayList (TItem.visit x :: rest) = grayList rest := by
                  simp [grayList, List.filterMap_cons]
                refine ⟨fun h => hxnotgray (mem_grayList.mp h), ?_⟩
                exact heq2 ▸ hinv.hgray_once
              · refine wlReady_visits_append (adjOf m x) ?_
                show WlReady m (s.1 ++ [x]) (adjOf m x) (TItem.emit x :: rest)
                refine ⟨fun u hu => Or.inr hu, ?_⟩
                have h0 : WlReady m s.1 ([] ++ [x]) rest := hinv.hready
                refine wlReady_mono h0 ?_ ?_
                · intro a ha
                  exact List.mem_append.mpr (Or.inl ha)
                · intro a ha
                  rcases List.mem_append.mp ha with h1 | h1
                  · cases h1
                  · rcases List.mem_singleton.mp h1 with rfl
                    exact Or.inl (List.mem_append.mpr (Or.inr (List.mem_singleton.mpr rfl)))
              · refine wlPath_visits_append (adjOf m x) ?_
                show WlPath m ([] ++ adjOf m x) (TItem.emit x :: rest)
                refine ⟨?_, ?_⟩
                · intro w hw
                  rw [List.nil_append] at hw
                  exact PathA.base hw
                · have h0 : WlPath m ([] ++ [x]) rest := hinv.hpath
                  refine wlPath_mono h0 ?_
                  intro w' hw' z hz
                  have hzx : PathA m z x :=
                    hz x (List.mem_append.mpr (Or.inr (List.mem_singleton.mpr rfl)))
                  rcases List.mem_append.mp hw' with h1 | h1
                  · rcases List.mem_append.mp h1 with h2 | h2
                    · cases h2
                    · exact PathA.snoc hzx h2
                  · rcases List.mem_singleton.mp h1 with rfl
                    exact hzx
              · intro pre v suf hsplit u hu
                rcases hinv.hord pre v suf hsplit u hu with h1 | ⟨h1, h2⟩
                · exact Or.inl h1
                · refine Or.inr ⟨?_, h2⟩
                  rw [emit_mem_visits_append]
                  rcases List.mem_cons.mp h1 with h3 | h3
                  · cases h3
                  · exact List.mem_cons_of_mem _ h3
            have hphi' : tsPhi m U ((adjOf m x).map TItem.visit ++ TItem.emit x :: rest)
                (s.1 ++ [x]) < fuel := by
              have := tsPhi_push m U rest hxU hx
              omega
            obtain ⟨c1, c2, c3, c4, c5, c6⟩ := ih _ _ hinv' hphi'
            set res := tsGo m fuel ((adjOf m x).map TItem.visit ++ TItem.emit x :: rest)
              (s.1 ++ [x], s.2) with hres
            obtain ⟨d1, hd1⟩ := c1
            refine ⟨⟨[x] ++ d1, by rw [hd1]; simp⟩, c2, ?_, ?_, ?_, c6⟩
            · intro y hy
              rcases List.mem_cons.mp hy with h1 | h1
              · cases h1
                rw [hd1]
                exact List.mem_append.mpr (Or.inl (List.mem_append.mpr
                  (Or.inr (List.mem_singleton.mpr rfl))))
              · exact c3 y (List.mem_append.mpr (Or.inr (List.mem_cons_of_mem _ h1)))
            · intro v hv
              rcases List.mem_cons.mp hv with h1 | h1
              · cases h1
              · exact c4 v (List.mem_append.mpr (Or.inr (List.mem_cons_of_mem _ h1)))
            · intro v hv
              rcases c5 v hv with h1 | h1
              · rcases List.mem_append.mp h1 with h2 | h2
                · exact Or.inl h2
                · rcases List.mem_singleton.mp h2 with rfl
                  exact Or.inr hxU
              · exact Or.inr h1
      | TItem.emit x :: rest =>
          rw [tsGo_emit]
          have hxseen : x ∈ s.1 :=
            (hinv.hseen x).mpr (Or.inr (List.mem_cons_self _ _))
          have hxout : x ∉ s.2 := hinv.hgray_out x (List.mem_cons_self _ _)
          have hxnotrest : TItem.emit x ∉ rest := by
            intro h
            have heq : grayList (TItem.emit x :: rest) = x :: grayList rest := by
              simp [grayList, List.filterMap_cons]
            have := hinv.hgray_once
            rw [heq, List.nodup_cons] at this
            exact this.1 (mem_grayList.mpr h)
          have hreadyx : ∀ u ∈ adjOf m x, u ∈ s.1 := by
            have h0 : (∀ u ∈ adjOf m x, u ∈ s.1 ∨ u ∈ ([] : List V))
                ∧ WlReady m s.1 [] rest := hinv.hready
            intro u hu
            rcases h0.1 u hu with h1 | h1
            · exact h1
            · cases h1
          have hpathrest : WlPath m ([] ++ [x]) rest := by
            have h0 : (∀ w ∈ ([] : List V), PathA m x w)
                ∧ WlPath m ([] ++ [x]) rest := hinv.hpath
            exact h0.2
          have hinv' : TSInv m U rest (s.1, s.2 ++ [x]) := by
            refine ⟨fun y hy => hinv.hU y (List.mem_cons_of_mem _ hy), ?_, ?_, ?_, ?_, ?_,
              ?_, ?_⟩
            · intro v
              show v ∈ s.1 ↔ v ∈ s.2 ++ [x] ∨ _
              rw [List.mem_append, List.mem_singleton]
              constructor
              · intro h1
                rcases (hinv.hseen v).mp h1 with h2 | h2
                · exact Or.inl (Or.inl h2)
                · rcases List.mem_cons.mp h2 with h3 | h3
                  · cases h3
                    exact Or.inl (Or.inr rfl)
                  · exact Or.inr h3
              · rintro ((h1 | h1) | h1)
                · exact (hinv.hseen v).mpr (Or.inl h1)
                · exact h1 ▸ hxseen
                · exact (hinv.hseen v).mpr (Or.inr (List.mem_cons_of_mem _ h1))
            · show (s.2 ++ [x]).Nodup
              simp [List.nodup_append, hinv.hnodup, hxout]
            · intro v hv
              show v ∉ s.2 ++ [x]
              rw [List.mem_append, List.mem_singleton]
              rintro (h1 | h1)
              · exact hinv.hgray_out v (List.mem_cons_of_mem _ hv) h1
              · exact hxnotrest (h1 ▸ hv)
            · have heq : grayList (TItem.emit x :: rest) = x :: grayList rest := by
                simp [grayList, List.filterMap_cons]
              have := hinv.hgray_once
              rw [heq, List.nodup_cons] at this
              exact this.2
            · have h0 : (∀ u ∈ adjOf m x, u ∈ s.1 ∨ u ∈ ([] : List V))
                  ∧ WlReady m s.1 [] rest := hinv.hready
              exact h0.2
            · exact wlPath_anti hpathrest (fun a ha => by cases ha)
            · intro pre v suf hsplit u hu
              rcases snoc_split hsplit with ⟨hpre, hv, hsuf⟩ | ⟨suf', hsuf, hout⟩
              · subst hv
                subst hpre
                have hu1 : u ∈ s.1 := hreadyx u hu
                rcases (hinv.hseen u).mp hu1 with h2 | h2
                · exact Or.inl h2
                · rcases List.mem_cons.mp h2 with h3 | h3
                  · cases h3
                    exact absurd (PathA.base hu) (hAc _)
                  · refine Or.inr ⟨h3, ?_⟩
                    exact wlPath_emit_path hpathrest h3 _
                      (List.mem_append.mpr (Or.inr (List.mem_singleton.mpr rfl)))
              · rcases hinv.hord pre v suf' hout u hu with h1 | ⟨h1, h2⟩
                · exact Or.inl h1
                · rcases List.mem_cons.mp h1 with h3 | h3
                  · cases h3
                    exact absurd (PathA.snoc h2 hu) (hAc _)
                  · exact Or.inr ⟨h3, h2⟩
          have hphi' : tsPhi m U rest s.1 < fuel := by
            have := tsPhi_cons m U (TItem.emit x) rest s.1
            omega
          obtain ⟨c1, c2, c3, c4, c5, c6⟩ := ih rest (s.1, s.2 ++ [x]) hinv' hphi'
          obtain ⟨d2, hd2⟩ := c2
          refine ⟨c1, ⟨[x] ++ d2, by rw [hd2]; simp⟩, ?_, ?_, c5, c6⟩
          · intro y hy
            rcases List.mem_cons.mp hy with h1 | h1
            · cases h1
            · exact c3 y h1
          · intro v hv
            rcases List.mem_cons.mp hv with h1 | h1
            · cases h1
              rw [hd2]
              exact List.mem_append.mpr (Or.inl (List.mem_append.mpr
                (Or.inr (List.mem_singleton.mpr rfl))))
            · exact c4 v h1

theorem idxOf_append_self {α : Type} [DecidableEq α] {pre suf : List α} {v : α}
    (h : v ∉ pre) : idxOf (pre ++ v :: suf) v = pre.length := by
  induction pre with
  | nil => simp [idxOf]
  | cons a l ih =>
      have hva : ¬ v = a := fun he => h (he ▸ List.mem_cons_self _ _)
      simp only [List.cons_append, idxOf, hva, if_false, List.length_cons]
      exact congrArg (fun n => n + 1) (ih (fun hm => h (List.mem_cons_of_mem _ hm)))

theorem idxOf_append_mem {α : Type} [DecidableEq α] {pre rest : List α} {a : α}
    (h : a ∈ pre) : idxOf (pre ++ rest) a = idxOf pre a := by
  induction pre with
  | nil => cases h
  | cons b l ih =>
      by_cases hab : a = b
      · simp [idxOf, hab]
      · rcases List.mem_cons.mp h with h1 | h1
        · exact absurd h1 hab
        · simp only [List.cons_append, idxOf, hab, if_false]
          exact congrArg (fun n => n + 1) (ih h1)

theorem idxOf_lt_length {α : Type} [DecidableEq α] {l : List α} {a : α}
    (h : a ∈ l) : idxOf l a < l.length := by
  induction l with
  | nil => cases h
  | cons b l ih =>
      by_cases hab : a = b
      · simp [idxOf, hab]
      · rcases List.mem_cons.mp h with h1 | h1
        · exact absurd h1 hab
        · simp only [idxOf, hab, if_false, List.length_cons]
          exact Nat.succ_lt_succ (ih h1)

theorem idxOf_lt_of_split {α : Type} [DecidableEq α] {pre suf : List α} {v a : α}
    (hnd : (pre ++ v :: suf).Nodup) (ha : a ∈ pre) :
    idxOf (pre ++ v :: suf) a < idxOf (pre ++ v :: suf) v := by
  have hv : v ∉ pre := by
    intro hvm
    rcases List.nodup_append.mp hnd with ⟨-, -, hdisj⟩
    exact hdisj hvm (List.mem_cons_self _ _)
  rw [idxOf_append_self hv, idxOf_append_mem ha]
  exact idxOf_lt_length ha

theorem pathA_head {V : Type} [DecidableEq V] {m : List (V × List V)} {a b c : V}
    (h1 : b ∈ adjOf m a) (h2 : PathA m b c) : PathA m a c := by
  induction h2 with
  | base h => exact PathA.snoc (PathA.base h1) h
  | snoc p h ih => exact PathA.snoc ih h

theorem pathA_bck_of_fwd {V : Type} [DecidableEq V] {g : Digraph' V} (hg : GInv g)
    {x y : V} (h : PathA g.fwd x y) : PathA g.bck y x := by
  induction h with
  | base h => exact PathA.base ((ginv_hasEdge_iff hg _ _).mp h)
  | snoc p h ih => exact pathA_head ((ginv_hasEdge_iff hg _ _).mp h) ih

theorem pathA_fwd_of_bck {V : Type} [DecidableEq V] {g : Digraph' V} (hg : GInv g)
    {x y : V} (h : PathA g.bck x y) : PathA g.fwd y x := by
  induction h with
  | base h => exact PathA.base ((ginv_hasEdge_iff hg _ _).mpr h)
  | snoc p h ih => exact pathA_head ((ginv_hasEdge_iff hg _ _).mpr h) ih

theorem tsInv_init {V : Type} [DecidableEq V] (m : List (V × List V)) (U seeds : List V)
    (hseeds : ∀ y ∈ seeds, y ∈ U) :
    TSInv m U (seeds.map TItem.visit) ([], []) := by
  have hmap : seeds.map TItem.visit = seeds.map TItem.visit ++ [] := by simp
  refine ⟨?_, ?_, List.nodup_nil, ?_, ?_, ?_, ?_, ?_⟩
  · intro y hy
    exact hseeds y (visit_mem_map_visit.mp hy)
  · intro v
    rw [hmap, emit_mem_visits_append]
    simp
  · intro v hv
    rw [hmap, emit_mem_visits_append] at hv
    cases hv
  · rw [hmap, grayList_visits]
    simp [grayList]
  · rw [hmap]
    refine wlReady_visits_append seeds ?_
    trivial
  · rw [hmap]
    refine wlPath_visits_append seeds ?_
    trivial
  · intro pre v suf hsplit u hu
    exact absurd hsplit.symm (by simp)

theorem tsPhi_init_le {V : Type} [DecidableEq V] (m : List (V × List V)) (U seeds : List V) :
    tsPhi m U (seeds.map TItem.visit) [] ≤ seeds.length + U.length + valsLen m := by
  have h1 : tsPhi m U (seeds.map TItem.visit) []
      = seeds.length + Finset.sum U.toFinset (fun x => (adjOf m x).length + 1) := by
    simp [tsPhi]
  rw [h1, Finset.sum_add_distrib, Finset.sum_const, smul_eq_mul, mul_one]
  have h2 := sum_adjOf_le m U.toFinset
  have h3 := U.toFinset_card_le
  omega

theorem topo_run_spec {V : Type} [DecidableEq V] (m : List (V × List V)) (seeds : List V)
    (hUm : ∀ p ∈ m, ∀ y ∈ p.2, y ∈ seeds)
    (hkeys : ∀ k ∈ keysOf m, k ∈ seeds)
    (hAc : ∀ v, ¬ PathA m v v)
    (fuel : Nat) (hfuel : 2 * seeds.length + valsLen m < fuel) :
    (tsGo m fuel (seeds.map TItem.visit) ([], [])).2.Nodup ∧
      (∀ v, v ∈ (tsGo m fuel (seeds.map TItem.visit) ([], [])).2 ↔ v ∈ seeds) ∧
      (∀ a b, a ∈ adjOf m b →
        idxOf (tsGo m fuel (seeds.map TItem.visit) ([], [])).2 a
          < idxOf (tsGo m fuel (seeds.map TItem.visit) ([], [])).2 b) := by
  have hphi : tsPhi m seeds (seeds.map TItem.visit) [] < fuel := by
    have := tsPhi_init_le m seeds seeds
    omega
  obtain ⟨⟨d1, hd1⟩, ⟨d2, hd2⟩, c3, c4, c5, fin⟩ :=
    tsGo_spec m seeds hUm hAc fuel (seeds.map TItem.visit) ([], [])
      (tsInv_init m seeds seeds (fun y hy => hy)) hphi
  set res := tsGo m fuel (seeds.map TItem.visit) ([], []) with hres
  have hmem : ∀ v, v ∈ res.2 ↔ v ∈ seeds := by
    intro v
    constructor
    · intro hv
      have hv1 : v ∈ res.1 := (fin.hseen v).mpr (Or.inl hv)
      rcases c5 v hv1 with h1 | h1
      · cases h1
      · exact h1
    · intro hv
      have hv1 : v ∈ res.1 := c3 v (visit_mem_map_visit.mpr hv)
      rcases (fin.hseen v).mp hv1 with h1 | h1
      · exact h1
      · cases h1
  refine ⟨fin.hnodup, hmem, ?_⟩
  intro a b hab
  have hb : b ∈ res.2 := by
    refine (hmem b).mpr (hkeys b (key_of_mem_adjOf hab))
  obtain ⟨pre, suf, hsplit⟩ := List.append_of_mem hb
  rcases fin.hord pre b suf hsplit a hab with h1 | ⟨h1, -⟩
  · rw [hsplit]
    exact idxOf_lt_of_split (hsplit ▸ fin.hnodup) h1
  · cases h1

theorem rank_lt_of_pathA {V : Type} [DecidableEq V] {m : List (V × List V)} {f : V → Nat}
    (hc : RankCert m f) {x y : V} (h : PathA m x y) : f x < f y := by
  induction h with
  | base h =>
      obtain ⟨p, hp, h1, h2⟩ := mem_adjOf_entry h
      exact h1 ▸ hc p hp _ h2
  | snoc p h ih =>
      obtain ⟨q, hq, h1, h2⟩ := mem_adjOf_entry h
      exact lt_trans ih (h1 ▸ hc q hq _ h2)

theorem acyclic_of_rankCert {V : Type} [DecidableEq V] {g : Digraph' V} {f : V → Nat}
    (hc : RankCert g.fwd f) : Acyclic g := by
  intro v hp
  exact lt_irrefl (f v) (rank_lt_of_pathA hc hp)

theorem topo_fwd_props {V : Type} [DecidableEq V] (g : Digraph' V)
    (hg : GInv g) (hAc : Acyclic g) :
    g.topo_sort_fwd.Nodup ∧ (∀ v, v ∈ g.topo_sort_fwd ↔ v ∈ vertexList g) ∧
      ∀ a b, hasEdge g a b → idxOf g.topo_sort_fwd a < idxOf g.topo_sort_fwd b := by
  · have hUm : ∀ p ∈ g.bck, ∀ y ∈ p.2, y ∈ keysOf g.fwd ++ keysOf g.bck := by
      intro p hp y hy
      have h1 : p.1 ∈ adjOf g.fwd y := hg.2.2.2 p hp y hy
      exact List.mem_append.mpr (Or.inl (key_of_mem_adjOf h1))
    have hkeys : ∀ k ∈ keysOf g.bck, k ∈ keysOf g.fwd ++ keysOf g.bck :=
      fun k hk => List.mem_append.mpr (Or.inr hk)
    have hAc' : ∀ v, ¬ PathA g.bck v v := fun v h => hAc v (pathA_fwd_of_bck hg h)
    have hfuel : 2 * (keysOf g.fwd ++ keysOf g.bck).length + valsLen g.bck
        < graphFuel g := by
      simp only [List.length_append, keysOf, List.length_map, graphFuel]
      omega
    obtain ⟨r1, r2, r3⟩ := topo_run_spec g.bck (keysOf g.fwd ++ keysOf g.bck)
      hUm hkeys hAc' (graphFuel g) hfuel
    refine ⟨r1, r2, ?_⟩
    intro a b hab
    exact r3 a b ((ginv_hasEdge_iff hg a b).mp hab)

theorem topo_bck_props {V : Type} [DecidableEq V] (g : Digraph' V)
    (hg : GInv g) (hAc : Acyclic g) :
    g.topo_sort_bck.Nodup ∧ (∀ v, v ∈ g.topo_sort_bck ↔ v ∈ vertexList g) ∧
      ∀ a b, hasEdge g a b → idxOf g.topo_sort_bck b < idxOf g.topo_sort_bck a := by
  · have hUm : ∀ p ∈ g.fwd, ∀ y ∈ p.2, y ∈ keysOf g.bck ++ keysOf g.fwd := by
      intro p hp y hy
      have h1 : p.1 ∈ adjOf g.bck y := hg.2.2.1 p hp y hy
      exact List.mem_append.mpr (Or.inl (key_of_mem_adjOf h1))
    have hkeys : ∀ k ∈ keysOf g.fwd, k ∈ keysOf g.bck ++ keysOf g.fwd :=
      fun k hk => List.mem_append.mpr (Or.inr hk)
    have hfuel : 2 * (keysOf g.bck ++ keysOf g.fwd).length + valsLen g.fwd
        < graphFuel g := by
      simp only [List.length_append, keysOf, List.length_map, graphFuel]
      omega
    obtain ⟨r1, r2, r3⟩ := topo_run_spec g.fwd (keysOf g.bck ++ keysOf g.fwd)
      hUm hkeys hAc (graphFuel g) hfuel
    have hmem : ∀ v, v ∈ g.topo_sort_bck ↔ v ∈ vertexList g := by
      intro v
      rw [show g.topo_sort_bck
        = (tsGo g.fwd (graphFuel g)
            ((keysOf g.bck ++ keysOf g.fwd).map TItem.visit) ([], [])).2 from rfl]
      rw [r2 v]
      unfold vertexList
      rw [List.mem_append, List.mem_append]
      tauto
    refine ⟨r1, hmem, ?_⟩
    intro a b hab
    exact r3 b a hab

/-- C5: on every well-formed acyclic graph, `topo_sort_fwd` yields every
vertex exactly once (duplicate-free, and a vertex is yielded iff it is a
vertex of the graph), and for every edge a→b the vertex a is yielded before
b; symmetrically `topo_sort_bck` yields every vertex exactly once and yields
a after b for every edge a→b. -/
theorem C5_topo_sort {V : Type} [DecidableEq V] (g : Digraph' V)
    (hg : GInv g) (hAc : Acyclic g) :
    (g.topo_sort_fwd.Nodup ∧ (∀ v, v ∈ g.topo_sort_fwd ↔ v ∈ vertexList g) ∧
      ∀ a b, hasEdge g a b → idxOf g.topo_sort_fwd a < idxOf g.topo_sort_fwd b) ∧
    (g.topo_sort_bck.Nodup ∧ (∀ v, v ∈ g.topo_sort_bck ↔ v ∈ vertexList g) ∧
      ∀ a b, hasEdge g a b → idxOf g.topo_sort_bck b < idxOf g.topo_sort_bck a) :=
  ⟨topo_fwd_props g hg hAc, topo_bck_props g hg hAc⟩

/-- C5 (witness): the concrete acyclic two-edge graph 0→1→2 satisfies the
hypotheses of `C5_topo_sort`, whose conclusion then applies to it. -/
theorem C5_topo_sort_witness :
    GInv ((Digraph'.empty.add_edge 0 1).add_edge 1 2) ∧
      Acyclic ((Digraph'.empty.add_edge 0 1).add_edge 1 2) ∧
      (((Digraph'.empty.add_edge 0 1).add_edge 1 2).topo_sort_fwd.Nodup ∧
        ∀ a b, hasEdge ((Digraph'.empty.add_edge 0 1).add_edge 1 2) a b →
          idxOf ((Digraph'.empty.add_edge 0 1).add_edge 1 2).topo_sort_fwd a
            < idxOf ((Digraph'.empty.add_edge 0 1).add_edge 1 2).topo_sort_fwd b) := by
  have hg : GInv ((Digraph'.empty.add_edge 0 1).add_edge 1 2) := by decide
  have hAc : Acyclic ((Digraph'.empty.add_edge 0 1).add_edge 1 2) :=
    acyclic_of_rankCert (f := fun n => n) (by decide)
  obtain ⟨⟨r1, r2, r3⟩, -⟩ := C5_topo_sort _ hg hAc
  exact ⟨hg, hAc, r1, r3⟩

theorem length_valsList {V : Type} (m : List (V × List V)) :
    (valsList m).length = valsLen m := by
  induction m with
  | nil => rfl
  | cons p r ih =>
      simp only [valsList, valsLen, List.map_cons, List.flatten_cons, List.length_append,
        List.sum_cons] at ih ⊢
      omega

theorem mem_valsList_of_adjOf {V : Type} [DecidableEq V] {m : List (V × List V)} {x y : V}
    (h : y ∈ adjOf m x) : y ∈ valsList m := by
  obtain ⟨p, hp, -, h2⟩ := mem_adjOf_entry h
  exact List.mem_flatten.mpr ⟨p.2, List.mem_map.mpr ⟨p, hp, rfl⟩, h2⟩

theorem spPhi_cons {V : Type} [DecidableEq V] (m : List (V × List V)) (U : List V)
    (p : V × V) (wl : List (V × V)) (seen : List V) :
    spPhi m U (p :: wl) seen = spPhi m U wl seen + 1 := by
  simp only [spPhi, List.length_cons]
  omega

theorem spPhi_push {V : Type} [DecidableEq V] (m : List (V × List V)) (U : List V)
    {y x : V} (wl : List (V × V)) {seen : List V} (hyU : y ∈ U) (hys : y ∉ seen) :
    spPhi m U ((y, x) :: wl) seen
      = spPhi m U ((adjOf m y).map (fun z => (z, y)) ++ wl) (seen ++ [y]) + 2 := by
  have hyD : y ∈ U.toFinset \ seen.toFinset := by
    simp [List.mem_toFinset, hyU, hys]
  have hsplit := (Finset.add_sum_erase (U.toFinset \ seen.toFinset)
    (fun v => (adjOf m v).length + 1) hyD).symm
  simp only [spPhi, sdiff_toFinset_append, List.length_cons, List.length_append,
    List.length_map]
  omega

theorem spGo_nil {V : Type} [DecidableEq V] (m : List (V × List V)) (fuel : Nat)
    (s : Digraph' V × List V) : spGo m fuel [] s = s := by
  cases fuel <;> rfl

theorem spGo_pair_seen {V : Type} [DecidableEq V] (m : List (V × List V)) (fuel : Nat)
    {y x : V} (rest : List (V × V)) {s : Digraph' V × List V} (h : y ∈ s.2) :
    spGo m (fuel+1) ((y, x) :: rest) s = spGo m fuel rest (s.1.add_edge y x, s.2) := by
  simp [spGo, h]

theorem spGo_pair_new {V : Type} [DecidableEq V] (m : List (V × List V)) (fuel : Nat)
    {y x : V} (rest : List (V × V)) {s : Digraph' V × List V} (h : y ∉ s.2) :
    spGo m (fuel+1) ((y, x) :: rest) s
      = spGo m fuel ((adjOf m y).map (fun z => (z, y)) ++ rest)
          (s.1.add_edge y x, s.2 ++ [y]) := by
  simp [spGo, h]

theorem hasEdge_add_edge {V : Type} [DecidableEq V] {g : Digraph' V} {x y a b : V} :
    hasEdge (g.add_edge x y) a b ↔ hasEdge g a b ∨ (a = x ∧ b = y) := by
  show b ∈ adjOf (addVal g.fwd x y) a ↔ _
  rw [mem_adjOf_addVal]
  rfl

theorem spGo_preserves {V : Type} [DecidableEq V] (m : List (V × List V))
    (P : Digraph' V → Prop) (hP : ∀ h a b, P h → P (h.add_edge a b)) :
    ∀ (fuel : Nat) (wl : List (V × V)) (s : Digraph' V × List V),
      P s.1 → P (spGo m fuel wl s).1 := by
  intro fuel
  induction fuel with
  | zero =>
      intro wl s hp
      cases wl <;> exact hp
  | succ fuel ih =>
      intro wl s hp
      match wl with
      | [] => exact hp
      | (y, x) :: rest =>
          by_cases hy : y ∈ s.2
          · rw [spGo_pair_seen m fuel rest hy]
            exact ih rest _ (hP _ _ _ hp)
          · rw [spGo_pair_new m fuel rest hy]
            exact ih _ _ (hP _ _ _ hp)

theorem spGo_spec {V : Type} [DecidableEq V] (m : List (V × List V)) (U : List V) (x0 : V)
    (hUm : ∀ p ∈ m, ∀ y ∈ p.2, y ∈ U) :
    ∀ (fuel : Nat) (wl : List (V × V)) (s : Digraph' V × List V),
      SPInv m U x0 wl s → spPhi m U wl s.2 < fuel →
      (∃ d, (spGo m fuel wl s).2 = s.2 ++ d) ∧
      SPInv m U x0 [] (spGo m fuel wl s) := by
  intro fuel
  induction fuel with
  | zero =>
      intro wl s _ hphi
      exact absurd hphi (Nat.not_lt_zero _)
  | succ fuel ih =>
      intro wl s hinv hphi
      match wl with
      | [] =>
          rw [spGo_nil]
          exact ⟨⟨[], by simp⟩, hinv⟩
      | (y, x) :: rest =>
          have hhead := hinv.hpairs (y, x) (List.mem_cons_self _ _)
          by_cases hy : y ∈ s.2
          · rw [spGo_pair_seen m fuel rest hy]
            have hinv' : SPInv m U x0 rest (s.1.add_edge y x, s.2) := by
              refine ⟨fun p hp => hinv.hU p (List.mem_cons_of_mem _ hp),
                fun p hp => hinv.hpairs p (List.mem_cons_of_mem _ hp), ?_, ?_, ?_,
                hinv.hreach⟩
              · intro a b hab
                rcases hasEdge_add_edge.mp hab with h1 | ⟨h1, h2⟩
                · exact hinv.hedge a b h1
                · subst h1; subst h2
                  exact ⟨hhead.1, hhead.2⟩
              · intro b hb a ha
                rcases hinv.hcomplete b hb a ha with h1 | h1
                · exact Or.inl (hasEdge_add_edge.mpr (Or.inl h1))
                · rcases List.mem_cons.mp h1 with h2 | h2
                  · cases h2
                    exact Or.inl (hasEdge_add_edge.mpr (Or.inr ⟨rfl, rfl⟩))
                  · exact Or.inr h2
              · intro a b hab
                rcases hasEdge_add_edge.mp hab with h1 | ⟨h1, h2⟩
                · exact hinv.hedge_src a b h1
                · exact h1 ▸ hy
            have hphi' : spPhi m U rest s.2 < fuel := by
              have := spPhi_cons m U (y, x) rest s.2
              omega
            exact ih rest _ hinv' hphi'
          · rw [spGo_pair_new m fuel rest hy]
            have hyU : y ∈ U := hinv.hU (y, x) (List.mem_cons_self _ _)
            have hyreach : y = x0 ∨ PathA m x0 y := by
              rcases hinv.hreach x hhead.1 with h1 | h1
              · exact Or.inr (h1 ▸ PathA.base hhead.2)
              · exact Or.inr (PathA.snoc h1 hhead.2)
            have hinv' : SPInv m U x0 ((adjOf m y).map (fun z => (z, y)) ++ rest)
                (s.1.add_edge y x, s.2 ++ [y]) := by
              refine ⟨?_, ?_, ?_, ?_, ?_, ?_⟩
              · intro p hp
                rcases List.mem_append.mp hp with h1 | h1
                · obtain ⟨z, hz, he⟩ := List.mem_map.mp h1
                  cases he
                  obtain ⟨q, hq, -, h2⟩ := mem_adjOf_entry hz
                  exact hUm q hq z h2
                · exact hinv.hU p (List.mem_cons_of_mem _ h1)
              · intro p hp
                rcases List.mem_append.mp hp with h1 | h1
                · obtain ⟨z, hz, he⟩ := List.mem_map.mp h1
                  cases he
                  exact ⟨List.mem_append.mpr (Or.inr (List.mem_singleton.mpr rfl)), hz⟩
                · have h2 := hinv.hpairs p (List.mem_cons_of_mem _ h1)
                  exact ⟨List.mem_append.mpr (Or.inl h2.1), h2.2⟩
              · intro a b hab
                rcases hasEdge_add_edge.mp hab with h1 | ⟨h1, h2⟩
                · have h2 := hinv.hedge a b h1
                  exact ⟨List.mem_append.mpr (Or.inl h2.1), h2.2⟩
                · subst h1; subst h2
                  exact ⟨List.mem_append.mpr (Or.inl hhead.1), hhead.2⟩
              · intro b hb a ha
                rcases List.mem_append.mp hb with h1 | h1
                · rcases hinv.hcomplete b h1 a ha with h2 | h2
                  · exact Or.inl (hasEdge_add_edge.mpr (Or.inl h2))
                  · rcases List.mem_cons.mp h2 with h3 | h3
                    · cases h3
                      exact Or.inl (hasEdge_add_edge.mpr (Or.inr ⟨rfl, rfl⟩))
                    · exact Or.inr (List.mem_append.mpr (Or.inr h3))
                · rcases List.mem_singleton.mp h1 with rfl
                  exact Or.inr (List.mem_append.mpr
                    (Or.inl (List.mem_map.mpr ⟨a, ha, rfl⟩)))
              · intro a b hab
                rcases hasEdge_add_edge.mp hab with h1 | ⟨h1, h2⟩
                · exact List.mem_append.mpr (Or.inl (hinv.hedge_src a b h1))
                · exact h1 ▸ List.mem_append.mpr (Or.inr (List.mem_singleton.mpr rfl))
              · intro v hv
                rcases List.mem_append.mp hv with h1 | h1
                · exact hinv.hreach v h1
                · rcases List.mem_singleton.mp h1 with rfl
                  exact hyreach
            have hphi' : spPhi m U ((adjOf m y).map (fun z => (z, y)) ++ rest)
                (s.2 ++ [y]) < fuel := by
              have := spPhi_push m U (x := x) rest hyU hy
              omega
            obtain ⟨⟨d, hd⟩, hfin⟩ := ih _ _ hinv' hphi'
            exact ⟨⟨[y] ++ d, by rw [hd]; simp⟩, hfin⟩

theorem nonEmptyVals_addVal {V : Type} [DecidableEq V] {m : List (V × List V)} {x y : V}
    (h : ∀ p ∈ m, p.2 ≠ []) : ∀ p ∈ addVal m x y, p.2 ≠ [] := by
  induction m with
  | nil =>
      rintro p hp
      rcases List.mem_cons.mp hp with h1 | h1
      · subst h1; simp
      · cases h1
  | cons q r ih =>
      obtain ⟨k, vs⟩ := q
      intro p hp
      simp only [addVal] at hp
      by_cases hx : x = k
      · rw [if_pos hx] at hp
        rcases List.mem_cons.mp hp with h1 | h1
        · subst h1
          by_cases hy : y ∈ vs
          · simp only [if_pos hy]
            exact fun he => List.not_mem_nil y (he ▸ hy)
          · simp only [if_neg hy]
            simp
        · exact h p (List.mem_cons_of_mem _ h1)
      · rw [if_neg hx] at hp
        rcases List.mem_cons.mp hp with h1 | h1
        · subst h1
          exact h (k, vs) (List.mem_cons_self _ _)
        · exact ih (fun q hq => h q (List.mem_cons_of_mem _ hq)) p h1

theorem ginv_subgraph {V : Type} [DecidableEq V] (g : Digraph' V) (x : V) :
    GInv (g.subgraph_paths_to x) := by
  unfold Digraph'.subgraph_paths_to
  exact spGo_preserves g.bck GInv (fun h a b hp => ginv_add_edge a b hp) _ _ _ ginv_empty

theorem nonEmpty_subgraph {V : Type} [DecidableEq V] (g : Digraph' V) (x : V) :
    (∀ p ∈ (g.subgraph_paths_to x).fwd, p.2 ≠ []) ∧
      (∀ p ∈ (g.subgraph_paths_to x).bck, p.2 ≠ []) := by
  unfold Digraph'.subgraph_paths_to
  refine spGo_preserves g.bck
    (fun h => (∀ p ∈ h.fwd, p.2 ≠ []) ∧ (∀ p ∈ h.bck, p.2 ≠ [])) ?_ _ _ _ ?_
  · rintro h a b ⟨h1, h2⟩
    exact ⟨nonEmptyVals_addVal h1, nonEmptyVals_addVal h2⟩
  · constructor <;> rintro p hp <;> cases hp

theorem key_nonempty_adj {V : Type} [DecidableEq V] {m : List (V × List V)} {k : V}
    (hnd : (keysOf m).Nodup) (hne : ∀ p ∈ m, p.2 ≠ []) (hk : k ∈ keysOf m) :
    adjOf m k ≠ [] := by
  obtain ⟨p, hp, he⟩ := List.mem_map.mp hk
  have h1 : aget m k = some p.2 := he ▸ aget_of_mem_nodup hnd hp
  rw [adjOf, h1]
  exact hne p hp

theorem pathA_first {V : Type} [DecidableEq V] {m : List (V × List V)} {v x : V}
    (h : PathA m v x) : ∃ b, b ∈ adjOf m v ∧ (b = x ∨ PathA m b x) := by
  induction h with
  | base h => exact ⟨_, h, Or.inl rfl⟩
  | snoc p h ih =>
      obtain ⟨b, hb, hbo⟩ := ih
      refine ⟨b, hb, Or.inr ?_⟩
      rcases hbo with rfl | h2
      · exact PathA.base h
      · exact PathA.snoc h2 h

theorem pathA_of_le {V : Type} [DecidableEq V] {m₁ m₂ : List (V × List V)}
    (hsub : ∀ u w, w ∈ adjOf m₁ u → w ∈ adjOf m₂ u) {a b : V}
    (h : PathA m₁ a b) : PathA m₂ a b := by
  induction h with
  | base h => exact PathA.base (hsub _ _ h)
  | snoc p h ih => exact PathA.snoc ih (hsub _ _ h)

theorem subgraph_run {V : Type} [DecidableEq V] (g : Digraph' V) (x : V) :
    (∃ d, (spGo g.bck (graphFuel g) ((adjOf g.bck x).map (fun y => (y, x)))
        (Digraph'.empty, [x])).2 = [x] ++ d) ∧
      SPInv g.bck (valsList g.bck) x []
        (spGo g.bck (graphFuel g) ((adjOf g.bck x).map (fun y => (y, x)))
          (Digraph'.empty, [x])) := by
  have hUm : ∀ p ∈ g.bck, ∀ y ∈ p.2, y ∈ valsList g.bck := by
    intro p hp y hy
    exact List.mem_flatten.mpr ⟨p.2, List.mem_map.mpr ⟨p, hp, rfl⟩, hy⟩
  have hinv : SPInv g.bck (valsList g.bck) x
      ((adjOf g.bck x).map (fun y => (y, x))) (Digraph'.empty, [x]) := by
    refine ⟨?_, ?_, ?_, ?_, ?_, ?_⟩
    · intro p hp
      obtain ⟨z, hz, he⟩ := List.mem_map.mp hp
      cases he
      exact mem_valsList_of_adjOf hz
    · intro p hp
      obtain ⟨z, hz, he⟩ := List.mem_map.mp hp
      cases he
      exact ⟨List.mem_singleton.mpr rfl, hz⟩
    · intro a b hab
      exact absurd hab (by simp [hasEdge, Digraph'.empty, adjOf, aget])
    · intro b hb a ha
      rcases List.mem_singleton.mp hb with rfl
      exact Or.inr (List.mem_map.mpr ⟨a, ha, rfl⟩)
    · intro a b hab
      exact absurd hab (by simp [hasEdge, Digraph'.empty, adjOf, aget])
    · intro v hv
      exact Or.inl (List.mem_singleton.mp hv)
  have hlen : (adjOf g.bck x).length ≤ valsLen g.bck := by
    have := sum_adjOf_le g.bck {x}
    simpa [Finset.sum_singleton] using this
  have hphi : spPhi g.bck (valsList g.bck) ((adjOf g.bck x).map (fun y => (y, x))) [x]
      < graphFuel g := by
    have hsum : Finset.sum ((valsList g.bck).toFinset \ ([x] : List V).toFinset)
        (fun v => (adjOf g.bck v).length + 1)
        ≤ Finset.sum ((valsList g.bck).toFinset)
          (fun v => (adjOf g.bck v).length + 1) := by
      refine Finset.sum_le_sum_of_subset ?_
      exact Finset.sdiff_subset
    have hsum2 : Finset.sum ((valsList g.bck).toFinset)
        (fun v => (adjOf g.bck v).length + 1) ≤ valsLen g.bck + valsLen g.bck := by
      rw [Finset.sum_add_distrib, Finset.sum_const, smul_eq_mul, mul_one]
      have h2 := sum_adjOf_le g.bck (valsList g.bck).toFinset
      have h3 := (valsList g.bck).toFinset_card_le
      rw [length_valsList] at h3
      omega
    simp only [spPhi, List.length_map, graphFuel]
    omega
  exact spGo_spec g.bck (valsList g.bck) x hUm (graphFuel g) _ _ hinv hphi

theorem subgraph_hasEdge {V : Type} [DecidableEq V] {g : Digraph' V} (hg : GInv g)
    (x a b : V) :
    hasEdge (g.subgraph_paths_to x) a b ↔ (b = x ∨ PathA g.fwd b x) ∧ hasEdge g a b := by
  obtain ⟨⟨d, hd⟩, hfin⟩ := subgraph_run g x
  set res := spGo g.bck (graphFuel g) ((adjOf g.bck x).map (fun y => (y, x)))
    (Digraph'.empty, [x]) with hres
  have hsub : g.subgraph_paths_to x = res.1 := rfl
  have hxseen : x ∈ res.2 := by
    rw [hd]
    exact List.mem_append.mpr (Or.inl (List.mem_singleton.mpr rfl))
  have hcl : ∀ u v, u ∈ res.2 → v ∈ adjOf g.bck u → v ∈ res.2 := by
    intro u v hu hv
    rcases hfin.hcomplete u hu v hv with h1 | h1
    · exact hfin.hedge_src v u h1
    · cases h1
  have hreach_seen : ∀ v, PathA g.bck x v → v ∈ res.2 := by
    intro v hp
    induction hp with
    | base h => exact hcl x _ hxseen h
    | snoc p h ih => exact hcl _ _ ih h
  rw [hsub]
  constructor
  · intro hab
    obtain ⟨h1, h2⟩ := hfin.hedge a b hab
    refine ⟨?_, (ginv_hasEdge_iff hg a b).mpr h2⟩
    rcases hfin.hreach b h1 with h3 | h3
    · exact Or.inl h3
    · exact Or.inr (pathA_fwd_of_bck hg h3)
  · rintro ⟨h1, h2⟩
    have hbseen : b ∈ res.2 := by
      rcases h1 with rfl | h3
      · exact hxseen
      · exact hreach_seen b (pathA_bck_of_fwd hg h3)
    rcases hfin.hcomplete b hbseen a ((ginv_hasEdge_iff hg a b).mp h2) with h4 | h4
    · exact h4
    · cases h4

theorem subgraph_vertex {V : Type} [DecidableEq V] {g : Digraph' V} (hg : GInv g)
    (x v : V) :
    v ∈ vertexList (g.subgraph_paths_to x)
      ↔ (PathA g.fwd v x ∨ (v = x ∧ adjOf g.bck x ≠ [])) := by
  have hgs := ginv_subgraph g x
  have hne := nonEmpty_subgraph g x
  constructor
  · intro hv
    rcases List.mem_append.mp hv with h1 | h1
    · have h2 := key_nonempty_adj hgs.1.1 hne.1 h1
      obtain ⟨b, hb⟩ := List.exists_mem_of_ne_nil _ h2
      have h3 : hasEdge (g.subgraph_paths_to x) v b := hb
      rw [subgraph_hasEdge hg] at h3
      obtain ⟨h4, h5⟩ := h3
      rcases h4 with rfl | h6
      · exact Or.inl (PathA.base h5)
      · exact Or.inl (pathA_head h5 h6)
    · have h2 := key_nonempty_adj hgs.2.1.1 hne.2 h1
      obtain ⟨a, ha⟩ := List.exists_mem_of_ne_nil _ h2
      have h3 : hasEdge (g.subgraph_paths_to x) a v :=
        (ginv_hasEdge_iff hgs a v).mpr ha
      rw [subgraph_hasEdge hg] at h3
      obtain ⟨h4, h5⟩ := h3
      rcases h4 with rfl | h6
      · refine Or.inr ⟨rfl, ?_⟩
        exact List.ne_nil_of_mem ((ginv_hasEdge_iff hg a v).mp h5)
      · exact Or.inl h6
  · intro hv
    rcases hv with h1 | ⟨rfl, h2⟩
    · obtain ⟨b, hb, hbo⟩ := pathA_first h1
      have h3 : hasEdge (g.subgraph_paths_to x) v b :=
        (subgraph_hasEdge hg x v b).mpr ⟨hbo, hb⟩
      exact List.mem_append.mpr (Or.inl (key_of_mem_adjOf h3))
    · obtain ⟨a, ha⟩ := List.exists_mem_of_ne_nil _ h2
      have h3 : hasEdge (g.subgraph_paths_to v) a v :=
        (subgraph_hasEdge hg v a v).mpr ⟨Or.inl rfl, (ginv_hasEdge_iff hg a v).mpr ha⟩
      have h4 := edge_endpoint_keys (ginv_subgraph g v) h3
      exact List.mem_append.mpr (Or.inr h4.2)

/-- C6 (counterexample): in the one-edge graph 0→1, the result of
`subgraph_paths_to 1` has 1 among its vertices (1 is a key of its backward
mapping) although 1 has no directed path to itself, contradicting the claim
that the vertex set is exactly the identities with a directed path to 1 and
that 1 is a vertex only if it reaches itself. -/
theorem C6_counterexample :
    1 ∈ vertexList ((Digraph'.empty.add_edge 0 1).subgraph_paths_to 1) ∧
      ¬ PathA (Digraph'.empty.add_edge 0 1).fwd 1 1 := by
  refine ⟨by decide, ?_⟩
  exact acyclic_of_rankCert (f := fun n => n) (by decide) 1

/-- C6 (amended): for every well-formed graph and vertex `x`, the result of
`subgraph_paths_to x` has edge set exactly the edges of the graph into
vertices on a path to `x` (including into `x` itself), and its vertex set is
exactly the identities with a directed non-empty path to `x`, except that `x`
itself is a vertex iff it has at least one direct incoming edge — not iff it
has a path to itself as claimed; any other vertex with no path to `x` is
entirely absent. -/
theorem C6_subgraph_paths_to {V : Type} [DecidableEq V] (g : Digraph' V) (x : V)
    (hg : GInv g) :
    (∀ a b, hasEdge (g.subgraph_paths_to x) a b
        ↔ (b = x ∨ PathA g.fwd b x) ∧ hasEdge g a b) ∧
      (∀ v, v ∈ vertexList (g.subgraph_paths_to x)
        ↔ (PathA g.fwd v x ∨ (v = x ∧ adjOf g.bck x ≠ []))) :=
  ⟨subgraph_hasEdge hg x, subgraph_vertex hg x⟩

/-- C6 (witness): the hypothesis of `C6_subgraph_paths_to` holds at the
concrete graph 0→1→2 with target 2, whose subgraph then contains the edge
0→1 and the vertex 0. -/
theorem C6_subgraph_paths_to_witness :
    GInv ((Digraph'.empty.add_edge 0 1).add_edge 1 2) ∧
      hasEdge (((Digraph'.empty.add_edge 0 1).add_edge 1 2).subgraph_paths_to 2) 0 1 ∧
      0 ∈ vertexList (((Digraph'.empty.add_edge 0 1).add_edge 1 2).subgraph_paths_to 2) := by
  have hg : GInv ((Digraph'.empty.add_edge 0 1).add_edge 1 2) := by decide
  have h := C6_subgraph_paths_to ((Digraph'.empty.add_edge 0 1).add_edge 1 2) 2 hg
  refine ⟨hg, ?_, ?_⟩
  · exact (h.1 0 1).mpr ⟨Or.inr (PathA.base (by decide)), by decide⟩
  · exact (h.2 0).mpr (Or.inl (PathA.snoc (y := 1) (PathA.base (by decide)) (by decide)))

theorem cont_finalizers_trace (b : Beh) (l : List Nat) :
    (cont_finalizers b l).1 = l := by
  induction l with
  | nil => rfl
  | cons f rest ih =>
      simp only [cont_finalizers]
      rw [ih]

theorem cont_finalizers_errs (b : Beh) (l : List Nat) :
    (cont_finalizers b l).2 = (l.filter (fun f => b.finFails f)).map Err.finErr := by
  induction l with
  | nil => rfl
  | cons f rest ih =>
      simp only [cont_finalizers, List.filter_cons]
      by_cases hf : b.finFails f
      · simp [hf, ih]
      · simp [hf, ih]

theorem aget_filter_ne {β : Type} (m : List (String × β)) (x : String) :
    aget (m.filter (fun p => decide (p.1 ≠ x))) x = none := by
  induction m with
  | nil => rfl
  | cons p r ih =>
      rw [List.filter_cons]
      by_cases hp : p.1 = x
      · rw [if_neg (by simp [hp])]
        exact ih
      · rw [if_pos (by simp [hp])]
        simp only [aget]
        rw [if_neg (fun h => hp h.symm)]
        exact ih

theorem finalize_module_modules (b : Beh) (st : PState) (name : String) :
    (finalize_module b st name).1.modules = st.modules := by
  unfold finalize_module
  cases aget st.fins name <;> rfl

theorem finalize_module_deps (b : Beh) (st : PState) (name : String) :
    (finalize_module b st name).1.deps = st.deps := by
  unfold finalize_module
  cases aget st.fins name <;> rfl

theorem finalize_module_next (b : Beh) (st : PState) (name : String) :
    (finalize_module b st name).1.next = st.next := by
  unfold finalize_module
  cases aget st.fins name <;> rfl

theorem adjOf_del_edges_from_self {V : Type} [DecidableEq V] (g : Digraph' V) (x : V) :
    adjOf (g.del_edges_from x).fwd x = [] := by
  unfold Digraph'.del_edges_from
  by_cases hx : x ∈ keysOf g.fwd
  · rw [if_pos hx]
    show adjOf (delKey g.fwd x) x = []
    rw [adjOf_delKey, if_pos rfl]
  · rw [if_neg hx]
    exact adjOf_of_not_key hx

theorem aget_append_of_none {V β : Type} [DecidableEq V] {m : List (V × β)}
    (l : List (V × β)) {k : V} (h : aget m k = none) :
    aget (m ++ l) k = aget l k := by
  induction m with
  | nil => rfl
  | cons p r ih =>
      simp only [aget] at h ⊢
      by_cases hk : k = p.1
      · rw [if_pos hk] at h
        cases h
      · rw [if_neg hk] at h ⊢
        exact ih h

/-- C3: finalizing an identity with a non-empty registered sequence invokes
every registered action in registration order regardless of which actions
raise, removes the registry entry only after all actions have been attempted
(the entry is gone in the resulting state), and propagates the raised errors
to the caller: the error list is exactly the failing actions, in order, and
is empty iff no action raised. -/
theorem C3_finalize_module (b : Beh) (st : PState) (name : String) (l : List Nat)
    (h1 : aget st.fins name = some l) (h2 : l ≠ []) :
    (finalize_module b st name).2.1 = l ∧
      aget (finalize_module b st name).1.fins name = none ∧
      (finalize_module b st name).2.2
        = (l.filter (fun f => b.finFails f)).map Err.finErr ∧
      ((finalize_module b st name).2.2 = [] ↔ ∀ f ∈ l, ¬ b.finFails f) := by
  have hstep : finalize_module b st name
      = (⟨st.deps, delFins st.fins name, st.modules, st.next⟩,
         (cont_finalizers b l).1, (cont_finalizers b l).2) := by
    unfold finalize_module
    rw [h1]
  rw [hstep]
  refine ⟨cont_finalizers_trace b l, aget_filter_ne st.fins name, cont_finalizers_errs b l, ?_⟩
  rw [cont_finalizers_errs b l]
  simp [List.filter_eq_nil_iff]

/-- C3 (witness): a concrete identity with three registered finalizers, the
first of which raises: all three are invoked in order and the aggregate error
names the failing one. -/
theorem C3_finalize_module_witness :
    aget ([("plugins.p", [0, 1, 2])] : List (String × List Nat)) "plugins.p"
        = some [0, 1, 2] ∧
      ([0, 1, 2] : List Nat) ≠ [] ∧
      (finalize_module ⟨fun f => f = 0, fun _ => ⟨true, [], []⟩⟩
          ⟨Digraph'.empty, [("plugins.p", [0, 1, 2])], [("plugins.p", 0)], 1⟩
          "plugins.p").2.1 = [0, 1, 2] ∧
      (finalize_module ⟨fun f => f = 0, fun _ => ⟨true, [], []⟩⟩
          ⟨Digraph'.empty, [("plugins.p", [0, 1, 2])], [("plugins.p", 0)], 1⟩
          "plugins.p").2.2 = [Err.finErr 0] := by
  have h := C3_finalize_module ⟨fun f => f = 0, fun _ => ⟨true, [], []⟩⟩
    ⟨Digraph'.empty, [("plugins.p", [0, 1, 2])], [("plugins.p", 0)], 1⟩
    "plugins.p" [0, 1, 2] (by decide) (by decide)
  exact ⟨by decide, by decide, h.1, by rw [h.2.2.1]; decide⟩

theorem unsafe_unload_not_plugin (b : Beh) (st : PState) (name : String)
    (h : is_plugin name = false) :
    unsafe_unload b st name = ⟨st, [], [Err.valueErr name]⟩ := by
  unfold unsafe_unload
  rw [if_pos (by simp [h])]

theorem unsafe_unload_loaded (b : Beh) (st : PState) (name : String)
    (h1 : is_plugin name = true) (h2 : (aget st.modules name).isSome = true) :
    unsafe_unload b st name
      = ⟨⟨st.deps.del_edges_from name, (finalize_module b st name).1.fins,
          delModule st.modules name, st.next⟩, [Ev.unl name],
         (finalize_module b st name).2.2⟩ := by
  unfold unsafe_unload
  rw [if_neg (by simp [h1])]
  simp only [finalize_module_modules, finalize_module_deps, finalize_module_next]
  rw [if_pos h2]

theorem unsafe_unload_evs (b : Beh) (st : PState) (name : String)
    (h1 : is_plugin name = true) :
    (unsafe_unload b st name).evs = [Ev.unl name] := by
  unfold unsafe_unload
  rw [if_neg (by simp [h1])]
  by_cases h2 : ((aget (finalize_module b st name).1.modules name).isSome : Prop)
  · rw [if_pos h2]
  · rw [if_neg h2]

theorem topo_sort_fwd_empty {V : Type} [DecidableEq V] :
    (Digraph'.empty : Digraph' V).topo_sort_fwd = [] := by
  unfold Digraph'.topo_sort_fwd
  rw [show ((keysOf (Digraph'.empty : Digraph' V).fwd
    ++ keysOf (Digraph'.empty : Digraph' V).bck).map TItem.visit) = [] from rfl]
  rw [tsGo_nil]

theorem topo_sort_bck_empty {V : Type} [DecidableEq V] :
    (Digraph'.empty : Digraph' V).topo_sort_bck = [] := by
  unfold Digraph'.topo_sort_bck
  rw [show ((keysOf (Digraph'.empty : Digraph' V).bck
    ++ keysOf (Digraph'.empty : Digraph' V).fwd).map TItem.visit) = [] from rfl]
  rw [tsGo_nil]

theorem subgraph_of_no_bck {V : Type} [DecidableEq V] {g : Digraph' V} {x : V}
    (h : adjOf g.bck x = []) : g.subgraph_paths_to x = Digraph'.empty := by
  unfold Digraph'.subgraph_paths_to
  rw [h, List.map_nil, spGo_nil]

/-- C10: on a loaded plugin, `unsafe_unload` deletes the outgoing edges and
removes the module from the host registry even when finalizers raise: for
every finalizer behaviour the resulting state has no outgoing edges for the
identity and no registry entry, and the finalizer errors (exactly those of
`finalize_module`) are what propagates, after both effects are in place. -/
theorem C10_unsafe_unload (b : Beh) (st : PState) (name : String) (i : Nat)
    (h1 : is_plugin name = true) (h2 : aget st.modules name = some i) :
    adjOf (unsafe_unload b st name).st.deps.fwd name = [] ∧
      aget (unsafe_unload b st name).st.modules name = none ∧
      (unsafe_unload b st name).errs = (finalize_module b st name).2.2 ∧
      (unsafe_unload b st name).evs = [Ev.unl name] := by
  rw [unsafe_unload_loaded b st name h1 (by rw [h2]; rfl)]
  exact ⟨adjOf_del_edges_from_self st.deps name, aget_filter_ne st.modules name, rfl, rfl⟩

/-- C10 (witness): a concrete loaded plugin with an out-edge and a failing
finalizer: the edge and the registry entry are gone and the error is
reported. -/
theorem C10_unsafe_unload_witness :
    is_plugin "plugins.p" = true ∧
      aget ([("plugins.p", 0), ("plugins.q", 1)] : List (String × Nat)) "plugins.p"
        = some 0 ∧
      adjOf (unsafe_unload ⟨fun _ => true, fun _ => ⟨true, [], []⟩⟩
          ⟨Digraph'.empty.add_edge "plugins.p" "plugins.q",
            [("plugins.p", [7])], [("plugins.p", 0), ("plugins.q", 1)], 2⟩
          "plugins.p").st.deps.fwd "plugins.p" = [] ∧
      (unsafe_unload ⟨fun _ => true, fun _ => ⟨true, [], []⟩⟩
          ⟨Digraph'.empty.add_edge "plugins.p" "plugins.q",
            [("plugins.p", [7])], [("plugins.p", 0), ("plugins.q", 1)], 2⟩
          "plugins.p").errs = [Err.finErr 7] := by
  have h := C10_unsafe_unload ⟨fun _ => true, fun _ => ⟨true, [], []⟩⟩
    ⟨Digraph'.empty.add_edge "plugins.p" "plugins.q",
      [("plugins.p", [7])], [("plugins.p", 0), ("plugins.q", 1)], 2⟩
    "plugins.p" 0 (by decide) (by decide)
  refine ⟨by decide, by decide, h.1, ?_⟩
  rw [h.2.2.1]
  decide

/-- C8: on an identity that is not a recognized plugin (and, for the
cascading operations, not wired into the dependency graph, as only plugins
ever are), `load`, `unload` and `reload` each raise exactly the usage error:
the state is unchanged, no unload or import event happens, and the error
list is precisely the single `ValueError` — not aggregated with batch
errors. -/
theorem C8_non_plugin_usage_error (b : Beh) (st : PState) (name : String)
    (h1 : is_plugin name = false) (h2 : adjOf st.deps.bck name = []) :
    load b st name = (⟨st, [], [Err.valueErr name]⟩, none) ∧
      unload b st name = ⟨st, [], [Err.valueErr name]⟩ ∧
      reload b st name = (⟨st, [], [Err.valueErr name]⟩, none) := by
  have hsub : st.deps.subgraph_paths_to name = Digraph'.empty := subgraph_of_no_bck h2
  have huu : unsafe_unload b st name = ⟨st, [], [Err.valueErr name]⟩ :=
    unsafe_unload_not_plugin b st name h1
  refine ⟨?_, ?_, ?_⟩
  · unfold load
    rw [if_pos (by simp [h1])]
  · unfold unload
    rw [hsub, topo_sort_fwd_empty]
    show (⟨(unsafe_unload b st name).st, [] ++ (unsafe_unload b st name).evs,
      [] ++ (unsafe_unload b st name).errs⟩ : Res) = _
    rw [huu]
    rfl
  · unfold reload
    rw [hsub]
    simp only [topo_sort_fwd_empty, topo_sort_bck_empty, reloadUnloadPass, reloadPass, huu]
    rfl

/-- C8 (witness): the non-plugin identity "util.tools" is rejected by all
three operations on a concrete state. -/
theorem C8_non_plugin_usage_error_witness :
    is_plugin "util.tools" = false ∧
      load ⟨fun _ => false, fun _ => ⟨true, [], []⟩⟩
          ⟨Digraph'.empty, [], [("plugins.a", 0)], 1⟩ "util.tools"
        = (⟨⟨Digraph'.empty, [], [("plugins.a", 0)], 1⟩, [],
            [Err.valueErr "util.tools"]⟩, none) ∧
      unload ⟨fun _ => false, fun _ => ⟨true, [], []⟩⟩
          ⟨Digraph'.empty, [], [("plugins.a", 0)], 1⟩ "util.tools"
        = ⟨⟨Digraph'.empty, [], [("plugins.a", 0)], 1⟩, [],
            [Err.valueErr "util.tools"]⟩ := by
  have h := C8_non_plugin_usage_error ⟨fun _ => false, fun _ => ⟨true, [], []⟩⟩
    ⟨Digraph'.empty, [], [("plugins.a", 0)], 1⟩ "util.tools" (by decide) (by decide)
  exact ⟨by decide, h.1, h.2.1⟩

/-- C9: a second `load` of an already-loaded plugin returns the stored
instance and changes nothing — no events, no errors, no new edges, registry
untouched; and a fresh successful `load` stores exactly the instance it
returns, so two consecutive loads return the same instance. -/
theorem C9_load_idempotent (b : Beh) (name : String) (h1 : is_plugin name = true) :
    (∀ (st : PState) (i : Nat), aget st.modules name = some i →
        load b st name = (⟨st, [], []⟩, some i)) ∧
      (∀ (st : PState) (j : Nat), aget st.modules name = none →
        (load b st name).2 = some j →
        aget (load b st name).1.st.modules name = some j) := by
  constructor
  · intro st i h2
    unfold load
    rw [if_neg (by simp [h1]), h2]
  · intro st j h2 hr
    unfold load at hr ⊢
    rw [if_neg (by simp [h1]), h2] at hr ⊢
    unfold import_module at hr ⊢
    rw [h2] at hr ⊢
    by_cases hok : (b.init name).ok
    · rw [if_pos hok] at hr ⊢
      simp only at hr ⊢
      have : j = st.next := by
        injection hr with h3
        exact h3.symm
      subst this
      rw [aget_append_of_none _ h2]
      simp [aget]
    · rw [if_neg hok] at hr
      simp only at hr
      cases hr

/-- C9 (witness): loading "plugins.a" twice from scratch: the first call
returns instance 0, and the second call returns the same instance 0 with the
state unchanged. -/
theorem C9_load_idempotent_witness :
    is_plugin "plugins.a" = true ∧
      aget (load ⟨fun _ => false, fun n => ⟨true, [], []⟩⟩
          ⟨Digraph'.empty, [], [], 0⟩ "plugins.a").1.st.modules "plugins.a" = some 0 ∧
      load ⟨fun _ => false, fun n => ⟨true, [], []⟩⟩
          (load ⟨fun _ => false, fun n => ⟨true, [], []⟩⟩
            ⟨Digraph'.empty, [], [], 0⟩ "plugins.a").1.st "plugins.a"
        = (⟨(load ⟨fun _ => false, fun n => ⟨true, [], []⟩⟩
              ⟨Digraph'.empty, [], [], 0⟩ "plugins.a").1.st, [], []⟩, some 0) := by
  have h := C9_load_idempotent ⟨fun _ => false, fun n => ⟨true, [], []⟩⟩
    "plugins.a" (by decide)
  have hst : aget (load ⟨fun _ => false, fun n => ⟨true, [], []⟩⟩
      ⟨Digraph'.empty, [], [], 0⟩ "plugins.a").1.st.modules "plugins.a" = some 0 := by
    decide
  exact ⟨by decide, hst, h.1 _ 0 hst⟩

theorem atexitPass_evs (b : Beh) (l : List String)
    (hpl : ∀ d ∈ l, is_plugin d = true) :
    ∀ st, (atexitPass b l st).evs = l.map Ev.unl := by
  induction l with
  | nil => intro st; rfl
  | cons d ds ih =>
      intro st
      show (unsafe_unload b st d).evs
          ++ (atexitPass b ds (unsafe_unload b st d).st).evs = _
      rw [unsafe_unload_evs b st d (hpl d (List.mem_cons_self _ _)),
        ih (fun e he => hpl e (List.mem_cons_of_mem _ he)) _]
      rfl

/-- C7 (counterexample): a state with one loaded plugin that has no recorded
dependency edge: the exit hook walks only the dependency graph, performs no
unsafe-unload at all and leaves the plugin registered — refuting the claim
that every plugin loaded at shutdown is unsafe-unloaded with none skipped. -/
theorem C7_counterexample :
    ¬ (∀ p ∈ (⟨Digraph'.empty, [], [("plugins.x", 0)], 1⟩ : PState).modules,
        Ev.unl p.1 ∈ (atexit_unload ⟨fun _ => false, fun _ => ⟨true, [], []⟩⟩
          ⟨Digraph'.empty, [], [("plugins.x", 0)], 1⟩).evs) := by
  decide

/-- C7 (amended): the exit hook unsafe-unloads exactly the vertices of the
dependency graph, in the forward topological order, attempting every member
regardless of which finalizers fail (the trace is the same for every
behaviour); a loaded plugin with no incident edge is not in the graph and is
skipped, contrary to the claim. -/
theorem C7_atexit_unload (b : Beh) (st : PState)
    (hpl : ∀ d ∈ st.deps.topo_sort_fwd, is_plugin d = true) :
    (atexit_unload b st).evs = (st.deps.topo_sort_fwd).map Ev.unl :=
  atexitPass_evs b st.deps.topo_sort_fwd hpl st

/-- C7 (witness): on a concrete state whose graph has the single edge
"plugins.p"→"plugins.q", the exit hook's trace is exactly the forward
topological order of the graph. -/
theorem C7_atexit_unload_witness :
    (∀ d ∈ (Digraph'.empty.add_edge "plugins.p" "plugins.q").topo_sort_fwd,
        is_plugin d = true) ∧
      (atexit_unload ⟨fun _ => false, fun _ => ⟨true, [], []⟩⟩
          ⟨Digraph'.empty.add_edge "plugins.p" "plugins.q", [],
            [("plugins.p", 0), ("plugins.q", 1)], 2⟩).evs
        = ((Digraph'.empty.add_edge "plugins.p" "plugins.q").topo_sort_fwd).map Ev.unl := by
  refine ⟨by decide, ?_⟩
  exact C7_atexit_unload ⟨fun _ => false, fun _ => ⟨true, [], []⟩⟩
    ⟨Digraph'.empty.add_edge "plugins.p" "plugins.q", [],
      [("plugins.p", 0), ("plugins.q", 1)], 2⟩ (by decide)

theorem unloadPass_evs (b : Beh) (name : String) (l : List String)
    (hpl : ∀ d ∈ l, d ≠ name → is_plugin d = true) :
    ∀ st, (unloadPass b name l st).evs
      = (l.filter (fun d => decide (d ≠ name))).map Ev.unl := by
  induction l with
  | nil => intro st; rfl
  | cons d ds ih =>
      intro st
      by_cases hd : d = name
      · have hstep : unloadPass b name (d :: ds) st = unloadPass b name ds st := by
          simp [unloadPass, hd]
        rw [hstep, List.filter_cons, if_neg (by simp [hd])]
        exact ih (fun e he hne => hpl e (List.mem_cons_of_mem _ he) hne) st
      · have hstep : (unloadPass b name (d :: ds) st).evs
            = (unsafe_unload b st d).evs
              ++ (unloadPass b name ds (unsafe_unload b st d).st).evs := by
          simp [unloadPass, hd]
        rw [hstep, List.filter_cons, if_pos (by simp [hd]),
          unsafe_unload_evs b st d (hpl d (List.mem_cons_self _ _) hd),
          ih (fun e he hne => hpl e (List.mem_cons_of_mem _ he) hne) _]
        rfl

theorem unl_mem_map {l : List String} {v : String} :
    Ev.unl v ∈ l.map Ev.unl ↔ v ∈ l := by
  constructor
  · intro h
    obtain ⟨a, ha, he⟩ := List.mem_map.mp h
    cases he
    exact ha
  · intro h
    exact List.mem_map.mpr ⟨v, h, rfl⟩

theorem imp_mem_map_unl {l : List String} {v : String} :
    Ev.imp v ∉ l.map Ev.unl := by
  intro h
  obtain ⟨a, ha, he⟩ := List.mem_map.mp h
  cases he

theorem subgraph_vertex_plugin {st : PState} {name : String}
    (hg : GInv st.deps)
    (hplv : ∀ v ∈ vertexList st.deps, is_plugin v = true)
    (hpl : is_plugin name = true) :
    ∀ d ∈ vertexList (st.deps.subgraph_paths_to name), is_plugin d = true := by
  intro d hd
  rcases (subgraph_vertex hg name d).mp hd with h1 | ⟨rfl, h2⟩
  · obtain ⟨e, he, -⟩ := pathA_first h1
    refine hplv d (List.mem_append.mpr (Or.inl (key_of_mem_adjOf he)))
  · exact hpl

theorem acyclic_subgraph {V : Type} [DecidableEq V] {g : Digraph' V} (hg : GInv g)
    (hAc : Acyclic g) (x : V) : Acyclic (g.subgraph_paths_to x) := by
  intro v hp
  refine hAc v (pathA_of_le ?_ hp)
  intro u w hw
  have h1 : hasEdge (g.subgraph_paths_to x) u w := hw
  rw [subgraph_hasEdge hg] at h1
  exact h1.2

/-- C2: `unload(P)` unsafe-unloads exactly the vertices of the dependents
subgraph of P — the identities with a directed path to P, plus P itself — in
the forward topological order of the subgraph with P excluded from the pass
and unsafe-unloaded last; the trace is the same for every finalizer
behaviour (every member is attempted even when earlier unloads raise, the
errors being collected), and for every edge a→b of the subgraph a is
unloaded before b.  In particular with the single edge A→B, `unload(B)`
unloads A before B. -/
theorem C2_unload (b : Beh) (st : PState) (name : String)
    (hg : GInv st.deps) (hAc : Acyclic st.deps) (hpl : is_plugin name = true)
    (hplv : ∀ v ∈ vertexList st.deps, is_plugin v = true) :
    (unload b st name).evs
        = (((st.deps.subgraph_paths_to name).topo_sort_fwd.filter
            (fun d => decide (d ≠ name))).map Ev.unl) ++ [Ev.unl name] ∧
      (∀ v, Ev.unl v ∈ (unload b st name).evs
        ↔ (PathA st.deps.fwd v name ∨ v = name)) ∧
      (∀ a c, hasEdge (st.deps.subgraph_paths_to name) a c →
        idxOf (st.deps.subgraph_paths_to name).topo_sort_fwd a
          < idxOf (st.deps.subgraph_paths_to name).topo_sort_fwd c) := by
  have hgs := ginv_subgraph st.deps name
  have hAcs := acyclic_subgraph hg hAc name
  obtain ⟨ht1, ht2, ht3⟩ := topo_fwd_props (st.deps.subgraph_paths_to name) hgs hAcs
  have hplo : ∀ d ∈ (st.deps.subgraph_paths_to name).topo_sort_fwd,
      d ≠ name → is_plugin d = true := by
    intro d hd hne
    exact subgraph_vertex_plugin hg hplv hpl d ((ht2 d).mp hd)
  have hevs : (unload b st name).evs
      = (((st.deps.subgraph_paths_to name).topo_sort_fwd.filter
          (fun d => decide (d ≠ name))).map Ev.unl) ++ [Ev.unl name] := by
    show (unloadPass b name ((st.deps.subgraph_paths_to name).topo_sort_fwd) st).evs
        ++ (unsafe_unload b
            (unloadPass b name ((st.deps.subgraph_paths_to name).topo_sort_fwd) st).st
            name).evs = _
    rw [unloadPass_evs b name _ hplo st, unsafe_unload_evs _ _ _ hpl]
  refine ⟨hevs, ?_, ht3⟩
  intro v
  rw [hevs]
  constructor
  · intro hv
    rcases List.mem_append.mp hv with h1 | h1
    · have h2 := unl_mem_map.mp h1
      have h3 := (List.mem_filter.mp h2).1
      rcases (subgraph_vertex hg name v).mp ((ht2 v).mp h3) with h4 | ⟨rfl, -⟩
      · exact Or.inl h4
      · exact Or.inr rfl
    · rcases List.mem_singleton.mp h1 with h2
      exact Or.inr (by injection h2)
  · intro hv
    rcases hv with h1 | rfl
    · by_cases hvn : v = name
      · exact List.mem_append.mpr (Or.inr (hvn ▸ List.mem_singleton.mpr rfl))
      · refine List.mem_append.mpr (Or.inl (unl_mem_map.mpr ?_))
        refine List.mem_filter.mpr ⟨?_, by simp [hvn]⟩
        exact (ht2 v).mpr ((subgraph_vertex hg name v).mpr (Or.inl h1))
    · exact List.mem_append.mpr (Or.inr (List.mem_singleton.mpr rfl))

/-- C2 (witness): with the single recorded edge "plugins.a"→"plugins.b"
(A's setup referenced B), `unload("plugins.b")` produces the trace
[unload A, unload B]: A is unloaded before B. -/
theorem C2_unload_witness :
    GInv (Digraph'.empty.add_edge "plugins.a" "plugins.b") ∧
      (unload ⟨fun _ => false, fun _ => ⟨true, [], []⟩⟩
          ⟨Digraph'.empty.add_edge "plugins.a" "plugins.b", [],
            [("plugins.a", 0), ("plugins.b", 1)], 2⟩ "plugins.b").evs
        = [Ev.unl "plugins.a", Ev.unl "plugins.b"] := by
  have hg : GInv (Digraph'.empty.add_edge "plugins.a" "plugins.b") := by decide
  have h := C2_unload ⟨fun _ => false, fun _ => ⟨true, [], []⟩⟩
    ⟨Digraph'.empty.add_edge "plugins.a" "plugins.b", [],
      [("plugins.a", 0), ("plugins.b", 1)], 2⟩ "plugins.b" hg
    (acyclic_of_rankCert (f := fun n => if n = "plugins.a" then 0 else 1) (by decide))
    (by decide) (by decide)
  refine ⟨hg, ?_⟩
  rw [h.1]
  decide

theorem import_module_evs (b : Beh) (st : PState) (d : String) :
    ∀ e ∈ (import_module b st d).1.evs, e = Ev.imp d := by
  intro e he
  unfold import_module at he
  cases h : aget st.modules d with
  | some i =>
      rw [h] at he
      cases he
  | none =>
      rw [h] at he
      by_cases hok : (b.init d).ok
      · rw [if_pos hok] at he
        simp only [List.mem_singleton] at he
        exact he
      · rw [if_neg hok] at he
        simp only [List.mem_singleton] at he
        exact he

theorem reloadPass_evs_shape (b : Beh) (sub : Digraph' String) (l : List String) :
    ∀ (st : PState) (us rs : List String),
      ∀ e ∈ (reloadPass b sub l st us rs).1.evs, ∃ d, e = Ev.imp d ∧ d ∈ us := by
  induction l with
  | nil =>
      intro st us rs e he
      cases he
  | cons d ds ih =>
      intro st us rs e he
      by_cases hc : d ∈ us ∧ ∀ mdep ∈ adjOf sub.fwd d, mdep ∈ rs
      · have hstep : (reloadPass b sub (d :: ds) st us rs).1.evs
            = (import_module b st d).1.evs
              ++ (reloadPass b sub ds (import_module b st d).1.st us
                  (if (import_module b st d).1.errs = [] then rs ++ [d] else rs)).1.evs := by
          simp only [reloadPass]
          rw [if_pos hc]
        rw [hstep] at he
        rcases List.mem_append.mp he with h1 | h1
        · exact ⟨d, import_module_evs b st d e h1, hc.1⟩
        · exact ih _ _ _ e h1
      · have hstep : reloadPass b sub (d :: ds) st us rs
            = reloadPass b sub ds st us rs := by
          simp only [reloadPass]
          rw [if_neg hc]
        rw [hstep] at he
        exact ih _ _ _ e he

theorem reloadUnloadPass_evs (b : Beh) (name : String) (l : List String)
    (hpl : ∀ d ∈ l, d ≠ name → is_plugin d = true) :
    ∀ st, (reloadUnloadPass b name l st).1.evs
      = (l.filter (fun d => decide (d ≠ name))).map Ev.unl := by
  induction l with
  | nil => intro st; rfl
  | cons d ds ih =>
      intro st
      by_cases hd : d = name
      · have hstep : reloadUnloadPass b name (d :: ds) st
            = reloadUnloadPass b name ds st := by
          simp [reloadUnloadPass, hd]
        rw [hstep, List.filter_cons, if_neg (by simp [hd])]
        exact ih (fun e he hne => hpl e (List.mem_cons_of_mem _ he) hne) st
      · have hstep : (reloadUnloadPass b name (d :: ds) st).1.evs
            = (unsafe_unload b st d).evs
              ++ (reloadUnloadPass b name ds (unsafe_unload b st d).st).1.evs := by
          simp [reloadUnloadPass, hd]
        rw [hstep, List.filter_cons, if_pos (by simp [hd]),
          unsafe_unload_evs b st d (hpl d (List.mem_cons_self _ _) hd),
          ih (fun e he hne => hpl e (List.mem_cons_of_mem _ he) hne) _]
        rfl

/-- C1: for every state and plugin identity, `reload` first unsafe-unloads
every member of the dependents subgraph except the identity, in forward
topological order (the same trace for every behaviour, so members after a
failure are still attempted), then unsafe-unloads the identity itself, and
everything re-imported afterwards is either the identity or a member whose
unsafe-unload succeeded (`unload_success`).  The claim's scenario, proved on
its concrete instance: with B depending on A and C depending on B and B's
re-initialization failing, reload(A) unloads C, B, A in order, re-imports A
successfully, attempts B, never re-imports C, leaves B and C unloaded, and
the aggregate error contains exactly B's failure. -/
theorem C1_reload :
    (∀ (b : Beh) (st : PState) (name : String),
      (∀ d ∈ (st.deps.subgraph_paths_to name).topo_sort_fwd, d ≠ name →
        is_plugin d = true) →
      is_plugin name = true →
      ∃ tail, (reload b st name).1.evs
          = (((st.deps.subgraph_paths_to name).topo_sort_fwd.filter
              (fun d => decide (d ≠ name))).map Ev.unl) ++ Ev.unl name :: tail
        ∧ ∀ e ∈ tail, ∃ d, e = Ev.imp d
            ∧ (d = name ∨ d ∈ (reloadUnloadPass b name
                ((st.deps.subgraph_paths_to name).topo_sort_fwd) st).2)) ∧
      (reload
          ⟨fun _ => false, fun n => if n = "plugins.a" then ⟨true, [], []⟩
            else if n = "plugins.b" then ⟨false, ["plugins.a"], []⟩
            else ⟨true, ["plugins.b"], []⟩⟩
          ⟨(Digraph'.empty.add_edge "plugins.b" "plugins.a").add_edge
              "plugins.c" "plugins.b", [],
            [("plugins.a", 0), ("plugins.b", 1), ("plugins.c", 2)], 3⟩
          "plugins.a").1.errs = [Err.initErr "plugins.b"] ∧
      aget (reload
          ⟨fun _ => false, fun n => if n = "plugins.a" then ⟨true, [], []⟩
            else if n = "plugins.b" then ⟨false, ["plugins.a"], []⟩
            else ⟨true, ["plugins.b"], []⟩⟩
          ⟨(Digraph'.empty.add_edge "plugins.b" "plugins.a").add_edge
              "plugins.c" "plugins.b", [],
            [("plugins.a", 0), ("plugins.b", 1), ("plugins.c", 2)], 3⟩
          "plugins.a").1.st.modules "plugins.a" = some 3 ∧
      aget (reload
          ⟨fun _ => false, fun n => if n = "plugins.a" then ⟨true, [], []⟩
            else if n = "plugins.b" then ⟨false, ["plugins.a"], []⟩
            else ⟨true, ["plugins.b"], []⟩⟩
          ⟨(Digraph'.empty.add_edge "plugins.b" "plugins.a").add_edge
              "plugins.c" "plugins.b", [],
            [("plugins.a", 0), ("plugins.b", 1), ("plugins.c", 2)], 3⟩
          "plugins.a").1.st.modules "plugins.b" = none ∧
      aget (reload
          ⟨fun _ => false, fun n => if n = "plugins.a" then ⟨true, [], []⟩
            else if n = "plugins.b" then ⟨false, ["plugins.a"], []⟩
            else ⟨true, ["plugins.b"], []⟩⟩
          ⟨(Digraph'.empty.add_edge "plugins.b" "plugins.a").add_edge
              "plugins.c" "plugins.b", [],
            [("plugins.a", 0), ("plugins.b", 1), ("plugins.c", 2)], 3⟩
          "plugins.a").1.st.modules "plugins.c" = none ∧
      (reload
          ⟨fun _ => false, fun n => if n = "plugins.a" then ⟨true, [], []⟩
            else if n = "plugins.b" then ⟨false, ["plugins.a"], []⟩
            else ⟨true, ["plugins.b"], []⟩⟩
          ⟨(Digraph'.empty.add_edge "plugins.b" "plugins.a").add_edge
              "plugins.c" "plugins.b", [],
            [("plugins.a", 0), ("plugins.b", 1), ("plugins.c", 2)], 3⟩
          "plugins.a").1.evs
        = [Ev.unl "plugins.c", Ev.unl "plugins.b", Ev.unl "plugins.a",
           Ev.imp "plugins.a", Ev.imp "plugins.b"] := by
  refine ⟨?_, by decide, by decide, by decide, by decide, by decide⟩
  intro b st name hplo hpl
  unfold reload
  simp only []
  set uo := (st.deps.subgraph_paths_to name).topo_sort_fwd with huo
  set ro := (st.deps.subgraph_paths_to name).topo_sort_bck with hro
  set p1 := reloadUnloadPass b name uo st with hp1
  have hp1evs : p1.1.evs = (uo.filter (fun d => decide (d ≠ name))).map Ev.unl :=
    reloadUnloadPass_evs b name uo hplo st
  have hfNevs : (unsafe_unload b p1.1.st name).evs = [Ev.unl name] :=
    unsafe_unload_evs b p1.1.st name hpl
  by_cases hN : (unsafe_unload b p1.1.st name).errs = []
  · rw [if_pos hN]
    refine ⟨(import_module b (unsafe_unload b p1.1.st name).st name).1.evs
      ++ (reloadPass b (st.deps.subgraph_paths_to name) ro
          (import_module b (unsafe_unload b p1.1.st name).st name).1.st p1.2
          (if (import_module b (unsafe_unload b p1.1.st name).st name).1.errs = []
            then [name] else [])).1.evs, ?_, ?_⟩
    · show p1.1.evs ++ (unsafe_unload b p1.1.st name).evs ++ _ ++ _ = _
      rw [hp1evs, hfNevs]
      simp
    · intro e he
      rcases List.mem_append.mp he with h1 | h1
      · exact ⟨name, import_module_evs b _ name e h1, Or.inl rfl⟩
      · obtain ⟨d, hd1, hd2⟩ := reloadPass_evs_shape b _ ro _ _ _ e h1
        exact ⟨d, hd1, Or.inr hd2⟩
  · rw [if_neg hN]
    refine ⟨(reloadPass b (st.deps.subgraph_paths_to name) ro
        (unsafe_unload b p1.1.st name).st p1.2 []).1.evs, ?_, ?_⟩
    · show p1.1.evs ++ (unsafe_unload b p1.1.st name).evs ++ _ = _
      rw [hp1evs, hfNevs]
      simp
    · intro e he
      obtain ⟨d, hd1, hd2⟩ := reloadPass_evs_shape b _ ro _ _ _ e he
      exact ⟨d, hd1, Or.inr hd2⟩

/-- C1 (witness): the hypotheses of the general part of `C1_reload` hold on
the scenario state (B depends on A, C depends on B), and the theorem then
describes the trace of reloading A there. -/
theorem C1_reload_witness :
    (∀ d ∈ ((⟨(Digraph'.empty.add_edge "plugins.b" "plugins.a").add_edge
          "plugins.c" "plugins.b", [],
        [("plugins.a", 0), ("plugins.b", 1), ("plugins.c", 2)], 3⟩ : PState).deps.subgraph_paths_to
          "plugins.a").topo_sort_fwd, d ≠ "plugins.a" → is_plugin d = true) ∧
      is_plugin "plugins.a" = true ∧
      ∃ tail, (reload
          ⟨fun _ => false, fun n => if n = "plugins.a" then ⟨true, [], []⟩
            else if n = "plugins.b" then ⟨false, ["plugins.a"], []⟩
            else ⟨true, ["plugins.b"], []⟩⟩
          ⟨(Digraph'.empty.add_edge "plugins.b" "plugins.a").add_edge
              "plugins.c" "plugins.b", [],
            [("plugins.a", 0), ("plugins.b", 1), ("plugins.c", 2)], 3⟩
          "plugins.a").1.evs
          = ((((⟨(Digraph'.empty.add_edge "plugins.b" "plugins.a").add_edge
                "plugins.c" "plugins.b", [],
              [("plugins.a", 0), ("plugins.b", 1), ("plugins.c", 2)], 3⟩ : PState).deps.subgraph_paths_to
                "plugins.a").topo_sort_fwd.filter
              (fun d => decide (d ≠ "plugins.a"))).map Ev.unl)
            ++ Ev.unl "plugins.a" :: tail
        ∧ ∀ e ∈ tail, ∃ d, e = Ev.imp d
            ∧ (d = "plugins.a" ∨ d ∈ (reloadUnloadPass
                ⟨fun _ => false, fun n => if n = "plugins.a" then ⟨true, [], []⟩
                  else if n = "plugins.b" then ⟨false, ["plugins.a"], []⟩
                  else ⟨true, ["plugins.b"], []⟩⟩ "plugins.a"
                (((⟨(Digraph'.empty.add_edge "plugins.b" "plugins.a").add_edge
                      "plugins.c" "plugins.b", [],
                    [("plugins.a", 0), ("plugins.b", 1), ("plugins.c", 2)], 3⟩ : PState).deps.subgraph_paths_to
                      "plugins.a").topo_sort_fwd)
                ⟨(Digraph'.empty.add_edge "plugins.b" "plugins.a").add_edge
                    "plugins.c" "plugins.b", [],
                  [("plugins.a", 0), ("plugins.b", 1), ("plugins.c", 2)], 3⟩).2) := by
  refine ⟨by decide, by decide, ?_⟩
  exact C1_reload.1
    ⟨fun _ => false, fun n => if n = "plugins.a" then ⟨true, [], []⟩
      else if n = "plugins.b" then ⟨false, ["plugins.a"], []⟩
      else ⟨true, ["plugins.b"], []⟩⟩
    ⟨(Digraph'.empty.add_edge "plugins.b" "plugins.a").add_edge
        "plugins.c" "plugins.b", [],
      [("plugins.a", 0), ("plugins.b", 1), ("plugins.c", 2)], 3⟩
    "plugins.a" (by decide) (by decide)
